import Mathlib

/-!
# Chained hash table of `Skopei-developer-test/hashmap.c`

A shallow embedding of the functions of `hashmap.c` and the properties the
specification states about them.

Conventions of the embedding.

* Target: LP64 (32-bit `int`, 64-bit `size_t`). Conversions to `int` wrap
  modulo `2^32` (two's complement), conversions to `size_t` reduce modulo
  `2^64`; `int` addition wraps as well.
* The signedness of plain `char` is implementation-defined; every function
  that reads key bytes takes it as the parameter `sc` (`true`: signed).
* A `char *` key is the list of bytes stored at the pointer; the string ends
  at the first zero byte, or at the end of the list, where the terminator is
  implied. So every list is a valid C string.
* A `void *` is its address, `0` being `NULL`.
* A chain (`Bucket *` linked through `next`) is the list of its nodes from
  the head on.
* Undefined behaviour (indexing the bucket array outside its bounds) is the
  result `none`.
* Calls made to a caller-supplied callback are returned as a list, in the
  order in which they are made.
-/

namespace Hashmap

/-! ## Machine integers and C strings -/

/-- One byte of a key string. -/
abbrev Byte := Fin 256

/-- A `void *`: an address, `0` standing for `NULL`. -/
abbrev Data := Nat

/-- The null pointer. -/
def NULL : Data := 0

/-- Conversion of an integer value to the 32-bit `int`. -/
def toInt32 (x : Int) : Int := (x + 2147483648) % 4294967296 - 2147483648

/-- Conversion of an integer value to the 64-bit `size_t`. -/
def toSizeT (x : Int) : Nat := (x % 18446744073709551616).toNat

/-- The value of a `char` holding byte `b`, promoted to `int`. -/
def charVal (sc : Bool) (b : Byte) : Int :=
  if sc && decide (128 ≤ b.val) then (b.val : Int) - 256 else (b.val : Int)

/-- Library `strlen`: the number of bytes before the terminator. -/
def strlen : List Byte → Nat
  | [] => 0
  | c :: rest => if c = 0 then 0 else strlen rest + 1

/-- Library `strdup`: a fresh copy of the string, up to its terminator. -/
def strdup : List Byte → List Byte
  | [] => []
  | c :: rest => if c = 0 then [] else c :: strdup rest

/-- Library `strcmp`: zero exactly when the two strings are equal, otherwise
the difference of the first two differing bytes (as `unsigned char`). -/
def strcmp : List Byte → List Byte → Int
  | [], [] => 0
  | [], b :: _ => - (b.val : Int)
  | a :: _, [] => (a.val : Int)
  | a :: as, b :: bs =>
    if a = b then (if a = 0 then 0 else strcmp as bs) else (a.val : Int) - (b.val : Int)

/-! ## Data model -/

/-- Modelled from the spec: `hashmap.h`, which declares `Bucket`, is not among
the sources. An entry holds an owned copy of the key string and a reference to
caller-supplied data; its `next` link is the rest of the list the entry
stands in. -/
structure Bucket where
  key : List Byte
  data : Data
  deriving DecidableEq, Repr

/-- Modelled from the spec: `hashmap.h`, which declares `HashMap`, is not among
the sources. A table is an ordered sequence of chain-head slots and its
capacity `size`. The field `size` is taken to be a `size_t`, the type of the
argument `create_hashmap` stores into it and of the counters `iterate` and
`delete_hashmap` compare with it. -/
structure HashMap where
  buckets : List (List Bucket)
  size : Nat
  deriving DecidableEq, Repr

/-- Modelled from the spec: `ResolveCollisionCallback` of `hashmap.h`, a
nullable pointer to a function `(existing, incoming) -> merged`. -/
abbrev ResolveCollisionCallback := Option (Data → Data → Data)

/-- Modelled from the spec: `DestroyDataCallback` of `hashmap.h`, a nullable
pointer to a function `(data) -> void`. -/
abbrev DestroyDataCallback := Option (Data → Unit)

/-! ## The functions of `hashmap.c` -/

/-- The loop of `hash`: `n` iterations left, counter `i`, accumulator `sum`.
`key[i]` is the `i`-th byte of the string, the terminator included. -/
def hashLoop (sc : Bool) (key : List Byte) : Nat → Nat → Int → Int
  | 0, _, sum => sum
  | n + 1, i, sum => hashLoop sc key n (i + 1) (toInt32 (sum + charVal sc (key.getD i 0)))

/-- The function `hash`: the `int` it returns. In `sum % hm->size` the `int`
sum is converted to `size_t`, the remainder is taken there and converted back
to `int` by the `return`. (`hm->size` is positive in every table
`create_hashmap` makes.) -/
def hash (sc : Bool) (hm : HashMap) (key : List Byte) : Int :=
  let len : Int := toInt32 ((strlen key : Int) + 1)
  let sum : Int := hashLoop sc key len.toNat 0 0
  toInt32 ((toSizeT sum % hm.size : Nat) : Int)

/-- The bucket index the callers of `hash` use: `size_t index = hash(hm, key)`. -/
def bucketIndex (sc : Bool) (hm : HashMap) (key : List Byte) : Nat :=
  toSizeT (hash sc hm key)

/-- The function `create_hashmap`; `none` when the assertion fails. Allocation
is taken to succeed. -/
def create_hashmap (key_size : Nat) : Option HashMap :=
  if 0 < key_size then some { buckets := List.replicate key_size [], size := key_size }
  else none

/-- The scan of `insert_data` over the chain from `current` on. `none`: the
loop ran off the end of the chain without finding the key. Otherwise the chain
with the matching entry's data replaced, and the calls made to
`resolve_collision` as pairs (first argument, second argument). -/
def insertLoop (key : List Byte) (data : Data) (resolve_collision : ResolveCollisionCallback) :
    List Bucket → Option (List Bucket × List (Data × Data))
  | [] => none
  | current :: next =>
    if strcmp current.key key = 0 then
      match resolve_collision with
      | some r => some ({ current with data := r current.data data } :: next, [(current.data, data)])
      | none => some ({ current with data := data } :: next, [])
    else
      match insertLoop key data resolve_collision next with
      | some (chain, calls) => some (current :: chain, calls)
      | none => none

/-- The function `insert_data`: the table afterwards and the calls made to
`resolve_collision`. `key` is a valid string and allocation is taken to
succeed. -/
def insert_data (sc : Bool) (hm : HashMap) (key : List Byte) (data : Data)
    (resolve_collision : ResolveCollisionCallback) : Option (HashMap × List (Data × Data)) :=
  let index := bucketIndex sc hm key
  match hm.buckets[index]? with
  | none => none
  | some head =>
    match insertLoop key data resolve_collision head with
    | some (chain, calls) => some ({ hm with buckets := hm.buckets.set index chain }, calls)
    | none =>
      let new_bucket : Bucket := { key := strdup key, data := data }
      some ({ hm with buckets := hm.buckets.set index (new_bucket :: head) }, [])

/-- The scan of `get_data` over the chain from `current` on. -/
def getLoop (key : List Byte) : List Bucket → Data
  | [] => NULL
  | current :: next => if strcmp current.key key = 0 then current.data else getLoop key next

/-- The function `get_data`; the key is `none` for a null pointer. -/
def get_data (sc : Bool) (hm : HashMap) (key : Option (List Byte)) : Option Data :=
  match key with
  | none => some NULL
  | some k =>
    match hm.buckets[bucketIndex sc hm k]? with
    | none => none
    | some head => some (getLoop k head)

/-- The inner loop of `iterate`: the calls `callback(key, data)` made along one
chain. -/
def iterateChain : List Bucket → List (List Byte × Data)
  | [] => []
  | current :: next => (current.key, current.data) :: iterateChain next

/-- The outer loop of `iterate`: `n` iterations left, counter `i`. -/
def iterateLoop (hm : HashMap) : Nat → Nat → Option (List (List Byte × Data))
  | 0, _ => some []
  | n + 1, i =>
    match hm.buckets[i]? with
    | none => none
    | some head =>
      match iterateLoop hm n (i + 1) with
      | some calls => some (iterateChain head ++ calls)
      | none => none

/-- The function `iterate`: the calls made to `callback`, in order. -/
def iterate (hm : HashMap) : Option (List (List Byte × Data)) :=
  iterateLoop hm hm.size 0

/-- The scan of `remove_data` over the chain from `current` on. `none`: the key
was not found. Otherwise the chain with the matching entry unlinked, and the
calls made to `destroy_data`. -/
def removeLoop (key : List Byte) (destroy_data : DestroyDataCallback) :
    List Bucket → Option (List Bucket × List Data)
  | [] => none
  | current :: next =>
    if strcmp current.key key = 0 then
      some (next, if destroy_data.isSome then [current.data] else [])
    else
      match removeLoop key destroy_data next with
      | some (chain, calls) => some (current :: chain, calls)
      | none => none

/-- The function `remove_data`: the table afterwards and the calls made to
`destroy_data`. `key` is a valid string. -/
def remove_data (sc : Bool) (hm : HashMap) (key : List Byte)
    (destroy_data : DestroyDataCallback) : Option (HashMap × List Data) :=
  let index := bucketIndex sc hm key
  match hm.buckets[index]? with
  | none => none
  | some head =>
    match removeLoop key destroy_data head with
    | some (chain, calls) => some ({ hm with buckets := hm.buckets.set index chain }, calls)
    | none => some (hm, [])

/-- The inner loop of `delete_hashmap`: the calls made to `destroy_data` along
one chain. -/
def deleteChain (destroy_data : DestroyDataCallback) : List Bucket → List Data
  | [] => []
  | current :: next =>
    (if destroy_data.isSome then [current.data] else []) ++ deleteChain destroy_data next

/-- The outer loop of `delete_hashmap`: `n` iterations left, counter `i`. -/
def deleteLoop (hm : HashMap) (destroy_data : DestroyDataCallback) :
    Nat → Nat → Option (List Data)
  | 0, _ => some []
  | n + 1, i =>
    match hm.buckets[i]? with
    | none => none
    | some head =>
      match deleteLoop hm destroy_data n (i + 1) with
      | some calls => some (deleteChain destroy_data head ++ calls)
      | none => none

/-- The function `delete_hashmap`: the calls made to `destroy_data`, in order.
The table does not exist afterwards. -/
def delete_hashmap (hm : HashMap) (destroy_data : DestroyDataCallback) : Option (List Data) :=
  deleteLoop hm destroy_data hm.size 0

/-! ## Vocabulary of the specification -/

/-- All entries of the table: the chains of slots `0`, `1`, ... one after the
other, each from head to tail. -/
def entries (hm : HashMap) : List Bucket := hm.buckets.flatten

/-- The table has the shape `create_hashmap` gives it: a positive capacity and
as many slots as the capacity. -/
def Shaped (hm : HashMap) : Prop := 0 < hm.size ∧ hm.buckets.length = hm.size

/-- Every entry stands in the chain of the slot its key hashes to. -/
def Placed (sc : Bool) (hm : HashMap) : Prop :=
  ∀ i (h : i < hm.buckets.length), ∀ b ∈ hm.buckets[i], bucketIndex sc hm b.key = i

/-- No chain holds two entries with equal keys. -/
def ChainsDistinct (hm : HashMap) : Prop :=
  ∀ i (h : i < hm.buckets.length),
    (hm.buckets[i]).Pairwise (fun a b => strcmp a.key b.key ≠ 0)

/-- The data-model invariant of a table. -/
def WF (sc : Bool) (hm : HashMap) : Prop :=
  Shaped hm ∧ Placed sc hm ∧ ChainsDistinct hm

instance (hm : HashMap) : Decidable (Shaped hm) := by unfold Shaped; infer_instance
instance (sc : Bool) (hm : HashMap) : Decidable (Placed sc hm) := by unfold Placed; infer_instance
instance (hm : HashMap) : Decidable (ChainsDistinct hm) := by unfold ChainsDistinct; infer_instance
instance (sc : Bool) (hm : HashMap) : Decidable (WF sc hm) := by unfold WF; infer_instance

/-- The number of entries of the table whose key equals `key`. -/
def keyCount (hm : HashMap) (key : List Byte) : Nat :=
  (entries hm).countP (fun b => decide (strcmp b.key key = 0))

/-- The tables a program can hold: made by `create_hashmap` and changed by
calls of `insert_data` and `remove_data` that return. -/
inductive Reachable (sc : Bool) : HashMap → Prop
  | create (key_size : Nat) (hm : HashMap) (h : create_hashmap key_size = some hm) :
      Reachable sc hm
  | insert (hm hm1 : HashMap) (key : List Byte) (data : Data) (r : ResolveCollisionCallback)
      (calls : List (Data × Data)) (h0 : Reachable sc hm)
      (h : insert_data sc hm key data r = some (hm1, calls)) : Reachable sc hm1
  | remove (hm hm1 : HashMap) (key : List Byte) (d : DestroyDataCallback)
      (calls : List Data) (h0 : Reachable sc hm)
      (h : remove_data sc hm key d = some (hm1, calls)) : Reachable sc hm1

/-- The data `insert_data` stores into an entry it found. -/
def merged (r : ResolveCollisionCallback) (old new : Data) : Data :=
  match r with
  | some f => f old new
  | none => new

/-- The calls `insert_data` makes to the resolver for an entry it found. -/
def resolverCalls (r : ResolveCollisionCallback) (old new : Data) : List (Data × Data) :=
  match r with
  | some _ => [(old, new)]
  | none => []

/-- A sequence of `insert_data` calls, each on the table the one before left;
`none` as soon as one of them is undefined. -/
def insertAll (sc : Bool) :
    HashMap → List (List Byte × Data × ResolveCollisionCallback) → Option HashMap
  | hm, [] => some hm
  | hm, (key, data, r) :: rest =>
    match insert_data sc hm key data r with
    | some (hm1, _) => insertAll sc hm1 rest
    | none => none

/-- A sequence of (key, data) pairs as `insert_data` calls without resolver. -/
def noResolver (ops : List (List Byte × Data)) :
    List (List Byte × Data × ResolveCollisionCallback) :=
  ops.map (fun p => (p.1, p.2, none))

/-- The data of the last insert of `key` in a sequence of inserts, if there is
one. -/
def lastWrite : List (List Byte × Data) → List Byte → Option Data
  | [], _ => none
  | (k, d) :: rest, key =>
    match lastWrite rest key with
    | some x => some x
    | none => if strcmp k key = 0 then some d else none

/-- The keys of the chain of slot `i`, from head to tail. -/
def chainKeys (hm : HashMap) (i : Nat) : List (List Byte) :=
  ((hm.buckets[i]?).getD []).map Bucket.key

/-- The byte sum of the specification's hash: the numeric values of all bytes
of the key, the terminator included, added up. -/
def byteSum (key : List Byte) : Nat :=
  ((strdup key ++ [0]).map (fun b : Byte => b.val)).sum

/-- The hash as the specification words it: the byte sum reduced modulo the
capacity. -/
def hashSpec (capacity : Nat) (key : List Byte) : Nat :=
  byteSum key % capacity

/-- The bytes of the key, the terminator included, added up as the values
plain `char` gives them. -/
def charSum (sc : Bool) (key : List Byte) : Int :=
  ((strdup key ++ [0]).map (charVal sc)).sum

/-- The tables a program gets from the table `hm0` by calls of `insert_data`
and `remove_data` that return. -/
inductive ReachableFrom (sc : Bool) (hm0 : HashMap) : HashMap → Prop
  | start : ReachableFrom sc hm0 hm0
  | insert (hm hm1 : HashMap) (key : List Byte) (data : Data) (r : ResolveCollisionCallback)
      (calls : List (Data × Data)) (h0 : ReachableFrom sc hm0 hm)
      (h : insert_data sc hm key data r = some (hm1, calls)) : ReachableFrom sc hm0 hm1
  | remove (hm hm1 : HashMap) (key : List Byte) (d : DestroyDataCallback)
      (calls : List Data) (h0 : ReachableFrom sc hm0 hm)
      (h : remove_data sc hm key d = some (hm1, calls)) : ReachableFrom sc hm0 hm1

/-- The data reference the table holds for `key` after a sequence of
`insert_data` calls, when it held `cur` before (`none`: no entry): the first
insert of the key stores its data, every later insert of the key replaces what
is held by the inserted data or, with a resolver, by the resolver's result. -/
def heldData : Option Data → List (List Byte × Data × ResolveCollisionCallback) →
    List Byte → Option Data
  | cur, [], _ => cur
  | cur, (k, d, r) :: rest, key =>
    if strcmp k key = 0 then
      match cur with
      | none => heldData (some d) rest key
      | some old => heldData (some (merged r old d)) rest key
    else heldData cur rest key

/-- The tables a program can hold that keeps to the contract of insert
(a non-empty key): made by `create_hashmap` and changed by calls of
`insert_data` with a non-empty key and of `remove_data` that return. -/
inductive ReachableByContract (sc : Bool) : HashMap → Prop
  | create (key_size : Nat) (hm : HashMap) (h : create_hashmap key_size = some hm) :
      ReachableByContract sc hm
  | insert (hm hm1 : HashMap) (key : List Byte) (data : Data) (r : ResolveCollisionCallback)
      (calls : List (Data × Data)) (h0 : ReachableByContract sc hm) (hkey : 0 < strlen key)
      (h : insert_data sc hm key data r = some (hm1, calls)) : ReachableByContract sc hm1
  | remove (hm hm1 : HashMap) (key : List Byte) (d : DestroyDataCallback)
      (calls : List Data) (h0 : ReachableByContract sc hm)
      (h : remove_data sc hm key d = some (hm1, calls)) : ReachableByContract sc hm1

/-! ## Sample tables -/

/-- The key `"foo"`. -/
def keyFoo : List Byte := [102, 111, 111]

/-- The key `"oof"`, which has the bytes of `"foo"` and so its hash. -/
def keyOof : List Byte := [111, 111, 102]

/-- The table `create_hashmap(4)` returns. -/
def emptyTable : HashMap := { buckets := [[], [], [], []], size := 4 }

/-- The table `create_hashmap(4)`, `insert_data("foo", 1)` leave. -/
def fooTable : HashMap :=
  { buckets := [[{ key := keyFoo, data := 1 }], [], [], []], size := 4 }

/-- The table `create_hashmap(4)`, `insert_data("foo", 1)`, `insert_data("oof", 2)`
leave: both keys stand in the chain of slot `0`. -/
def sampleTable : HashMap :=
  { buckets := [[{ key := keyOof, data := 2 }, { key := keyFoo, data := 1 }], [], [], []],
    size := 4 }

/-- A table of `2^32` empty slots, as `create_hashmap(4294967296)` returns it. -/
def bigTable : HashMap := { buckets := List.replicate 4294967296 [], size := 4294967296 }

/-- The table `create_hashmap(7)` returns. -/
def sevenTable : HashMap := { buckets := [[], [], [], [], [], [], []], size := 7 }

/-- Four inserts without resolver, of `"foo"` and `"oof"` and of both again;
on the table `create_hashmap(4)` returns they leave `sampleTable`. -/
def sampleOps : List (List Byte × Data × ResolveCollisionCallback) :=
  [(keyFoo, 7, none), (keyOof, 8, none), (keyFoo, 1, none), (keyOof, 2, none)]

/-- Two inserts without resolver, of the different keys `"foo"` and `"oof"` with
the different data `1` and `2`; on the table `create_hashmap(4)` returns they
leave `sampleTable`. -/
def distinctOps : List (List Byte × Data × ResolveCollisionCallback) :=
  [(keyFoo, 1, none), (keyOof, 2, none)]

/-! ## Strings and hashing -/

theorem strcmp_eq_zero_iff (a b : List Byte) : strcmp a b = 0 ↔ strdup a = strdup b := by
  induction a generalizing b with
  | nil =>
    cases b with
    | nil => simp [strcmp, strdup]
    | cons y ys =>
      by_cases hy : y = 0
      · simp [strcmp, strdup, hy]
      · have : (y.val : Int) ≠ 0 := by
          intro h; apply hy; apply Fin.ext; simpa using h
        simp [strcmp, strdup, hy, this]
  | cons x xs ih =>
    cases b with
    | nil =>
      by_cases hx : x = 0
      · simp [strcmp, strdup, hx]
      · have : (x.val : Int) ≠ 0 := by
          intro h; apply hx; apply Fin.ext; simpa using h
        simp [strcmp, strdup, hx, this]
    | cons y ys =>
      by_cases hxy : x = y
      · subst hxy
        by_cases hx : x = 0
        · simp [strcmp, strdup, hx]
        · simp [strcmp, strdup, hx, ih]
      · have hne : (x.val : Int) - (y.val : Int) ≠ 0 := by
          intro h; apply hxy; apply Fin.ext; omega
        have hl : strcmp (x :: xs) (y :: ys) ≠ 0 := by
          simp only [strcmp, hxy, if_false]; exact hne
        have hr : strdup (x :: xs) ≠ strdup (y :: ys) := by
          by_cases hx : x = 0 <;> by_cases hy : y = 0
          · exact absurd (hx.trans hy.symm) hxy
          · simp [strdup, hx, hy]
          · simp [strdup, hx, hy]
          · simp [strdup, hx, hy, hxy]
        exact ⟨fun h => absurd h hl, fun h => absurd h hr⟩

theorem strdup_strdup (a : List Byte) : strdup (strdup a) = strdup a := by
  induction a with
  | nil => rfl
  | cons x xs ih =>
    by_cases hx : x = 0
    · simp [strdup, hx]
    · simp [strdup, hx, ih]

theorem strcmp_strdup_self (k : List Byte) : strcmp (strdup k) k = 0 :=
  (strcmp_eq_zero_iff _ _).2 (strdup_strdup k)

theorem strcmp_symm {a b : List Byte} (h : strcmp a b = 0) : strcmp b a = 0 :=
  (strcmp_eq_zero_iff _ _).2 ((strcmp_eq_zero_iff _ _).1 h).symm

theorem strcmp_trans {a b c : List Byte} (h1 : strcmp a b = 0) (h2 : strcmp b c = 0) :
    strcmp a c = 0 :=
  (strcmp_eq_zero_iff _ _).2 (((strcmp_eq_zero_iff _ _).1 h1).trans ((strcmp_eq_zero_iff _ _).1 h2))

theorem strlen_strdup (a : List Byte) : strlen (strdup a) = strlen a := by
  induction a with
  | nil => rfl
  | cons x xs ih =>
    by_cases hx : x = 0
    · simp [strdup, strlen, hx]
    · simp [strdup, strlen, hx, ih]

/-- The bytes `hash` reads, positions `0 .. strlen`, are those of the copy. -/
theorem getD_strdup (a : List Byte) (i : Nat) (h : i ≤ strlen a) :
    (strdup a).getD i 0 = a.getD i 0 := by
  induction a generalizing i with
  | nil => rfl
  | cons x xs ih =>
    by_cases hx : x = 0
    · have hi : i = 0 := by simpa [strlen, hx] using h
      subst hi
      simp [strdup, hx]
    · cases i with
      | zero => simp [strdup, hx]
      | succ j =>
        have hj : j ≤ strlen xs := by simpa [strlen, hx] using h
        simpa [strdup, hx] using ih j hj

theorem hashLoop_congr (sc : Bool) (a b : List Byte) (n i : Nat) (sum : Int)
    (h : ∀ j, i ≤ j → j < i + n → a.getD j 0 = b.getD j 0) :
    hashLoop sc a n i sum = hashLoop sc b n i sum := by
  induction n generalizing i sum with
  | zero => rfl
  | succ n ih =>
    simp only [hashLoop]
    rw [h i (Nat.le_refl _) (by omega)]
    exact ih _ _ (fun j h1 h2 => h j (by omega) (by omega))

theorem hash_strdup (sc : Bool) (hm : HashMap) (k : List Byte) :
    hash sc hm (strdup k) = hash sc hm k := by
  unfold hash
  rw [strlen_strdup]
  simp only
  rw [hashLoop_congr sc (strdup k) k]
  intro j _ hj
  apply getD_strdup
  have : (toInt32 ((strlen k : Int) + 1)).toNat ≤ strlen k + 1 := by
    unfold toInt32; omega
  omega

theorem bucketIndex_strdup (sc : Bool) (hm : HashMap) (k : List Byte) :
    bucketIndex sc hm (strdup k) = bucketIndex sc hm k := by
  unfold bucketIndex; rw [hash_strdup]

theorem bucketIndex_of_strcmp (sc : Bool) (hm : HashMap) {a b : List Byte}
    (h : strcmp a b = 0) : bucketIndex sc hm a = bucketIndex sc hm b := by
  rw [← bucketIndex_strdup sc hm a, ← bucketIndex_strdup sc hm b,
    (strcmp_eq_zero_iff a b).1 h]

theorem bucketIndex_size (sc : Bool) (hm hm1 : HashMap) (k : List Byte)
    (h : hm1.size = hm.size) : bucketIndex sc hm1 k = bucketIndex sc hm k := by
  unfold bucketIndex hash; rw [h]

/-- In a table of at most `2^31` slots the index `hash` gives is a slot. -/
theorem bucketIndex_lt (sc : Bool) (hm : HashMap) (k : List Byte)
    (h0 : 0 < hm.size) (h1 : hm.size ≤ 2147483648) : bucketIndex sc hm k < hm.size := by
  unfold bucketIndex hash
  simp only
  generalize hashLoop sc k _ 0 0 = sum
  have h3 : toSizeT sum % hm.size < hm.size := Nat.mod_lt _ h0
  generalize toSizeT sum % hm.size = r at h3
  unfold toSizeT toInt32
  omega

/-! ## The chain scans -/

theorem insertLoop_eq_none_iff (key : List Byte) (data : Data) (r : ResolveCollisionCallback)
    (chain : List Bucket) :
    insertLoop key data r chain = none ↔ ∀ b ∈ chain, strcmp b.key key ≠ 0 := by
  induction chain with
  | nil => simp [insertLoop]
  | cons x xs ih =>
    by_cases hx : strcmp x.key key = 0
    · cases r <;> simp [insertLoop, hx]
    · cases hrec : insertLoop key data r xs with
      | none => simpa [insertLoop, hx, hrec] using ih.1 hrec
      | some p =>
        have : ¬ ∀ b ∈ xs, strcmp b.key key ≠ 0 := fun h => by
          rw [ih.2 h] at hrec; cases hrec
        simpa [insertLoop, hx, hrec] using this

/-- What the scan of `insert_data` does when it finds the key: the first entry
with that key gets the new or merged data, everything else stays. -/
theorem insertLoop_eq_some (key : List Byte) (data : Data) (r : ResolveCollisionCallback)
    (chain c : List Bucket) (calls : List (Data × Data))
    (h : insertLoop key data r chain = some (c, calls)) :
    ∃ pre b post, chain = pre ++ b :: post ∧ (∀ x ∈ pre, strcmp x.key key ≠ 0) ∧
      strcmp b.key key = 0 ∧
      c = pre ++ { key := b.key, data := merged r b.data data } :: post ∧
      calls = resolverCalls r b.data data := by
  induction chain generalizing c calls with
  | nil => simp [insertLoop] at h
  | cons x xs ih =>
    by_cases hx : strcmp x.key key = 0
    · refine ⟨[], x, xs, rfl, by simp, hx, ?_, ?_⟩
      · cases r <;> simp [insertLoop, hx] at h <;> simp [merged, ← h.1]
      · cases r <;> simp [insertLoop, hx] at h <;> simp [resolverCalls, ← h.2]
    · cases hrec : insertLoop key data r xs with
      | none => simp [insertLoop, hx, hrec] at h
      | some p =>
        obtain ⟨c1, calls1⟩ := p
        simp [insertLoop, hx, hrec] at h
        obtain ⟨pre, b, post, h1, h2, h3, h4, h5⟩ := ih c1 calls1 hrec
        refine ⟨x :: pre, b, post, by simp [h1], ?_, h3, by simp [← h.1, h4], by rw [← h.2, h5]⟩
        intro y hy
        rcases List.mem_cons.1 hy with rfl | hy
        · exact hx
        · exact h2 y hy

theorem removeLoop_eq_none_iff (key : List Byte) (d : DestroyDataCallback)
    (chain : List Bucket) :
    removeLoop key d chain = none ↔ ∀ b ∈ chain, strcmp b.key key ≠ 0 := by
  induction chain with
  | nil => simp [removeLoop]
  | cons x xs ih =>
    by_cases hx : strcmp x.key key = 0
    · simp [removeLoop, hx]
    · cases hrec : removeLoop key d xs with
      | none => simpa [removeLoop, hx, hrec] using ih.1 hrec
      | some p =>
        have : ¬ ∀ b ∈ xs, strcmp b.key key ≠ 0 := fun h => by
          rw [ih.2 h] at hrec; cases hrec
        simpa [removeLoop, hx, hrec] using this

/-- What the scan of `remove_data` does when it finds the key: the first entry
with that key is unlinked, everything else stays. -/
theorem removeLoop_eq_some (key : List Byte) (d : DestroyDataCallback)
    (chain c : List Bucket) (calls : List Data)
    (h : removeLoop key d chain = some (c, calls)) :
    ∃ pre b post, chain = pre ++ b :: post ∧ (∀ x ∈ pre, strcmp x.key key ≠ 0) ∧
      strcmp b.key key = 0 ∧ c = pre ++ post ∧
      calls = (if d.isSome then [b.data] else []) := by
  induction chain generalizing c calls with
  | nil => simp [removeLoop] at h
  | cons x xs ih =>
    by_cases hx : strcmp x.key key = 0
    · simp [removeLoop, hx] at h
      exact ⟨[], x, xs, rfl, by simp, hx, by simp [← h.1], by rw [← h.2]⟩
    · cases hrec : removeLoop key d xs with
      | none => simp [removeLoop, hx, hrec] at h
      | some p =>
        obtain ⟨c1, calls1⟩ := p
        simp [removeLoop, hx, hrec] at h
        obtain ⟨pre, b, post, h1, h2, h3, h4, h5⟩ := ih c1 calls1 hrec
        refine ⟨x :: pre, b, post, by simp [h1], ?_, h3, by simp [← h.1, h4], by rw [← h.2, h5]⟩
        intro y hy
        rcases List.mem_cons.1 hy with rfl | hy
        · exact hx
        · exact h2 y hy

theorem getLoop_append_of_miss (key : List Byte) (pre rest : List Bucket)
    (h : ∀ x ∈ pre, strcmp x.key key ≠ 0) : getLoop key (pre ++ rest) = getLoop key rest := by
  induction pre with
  | nil => rfl
  | cons x xs ih =>
    have hx : strcmp x.key key ≠ 0 := h x (List.mem_cons_self _ _)
    simp only [List.cons_append, getLoop, hx, if_false]
    exact ih (fun y hy => h y (List.mem_cons_of_mem _ hy))

theorem getLoop_of_miss (key : List Byte) (chain : List Bucket)
    (h : ∀ x ∈ chain, strcmp x.key key ≠ 0) : getLoop key chain = NULL := by
  have := getLoop_append_of_miss key chain [] h
  simpa [getLoop] using this

theorem getLoop_hit (key : List Byte) (pre post : List Bucket) (b : Bucket)
    (h : ∀ x ∈ pre, strcmp x.key key ≠ 0) (hb : strcmp b.key key = 0) :
    getLoop key (pre ++ b :: post) = b.data := by
  rw [getLoop_append_of_miss key pre _ h]
  simp [getLoop, hb]

/-! ## The invariant and the operations -/

theorem WF_set (sc : Bool) (hm : HashMap) (i : Nat) (chain : List Bucket) (h : WF sc hm)
    (hp : ∀ b ∈ chain, bucketIndex sc hm b.key = i)
    (hd : chain.Pairwise (fun a b => strcmp a.key b.key ≠ 0)) :
    WF sc { hm with buckets := hm.buckets.set i chain } := by
  obtain ⟨⟨h0, hlen⟩, hpl, hcd⟩ := h
  refine ⟨⟨h0, by simpa using hlen⟩, ?_, ?_⟩
  · intro j hj b hb
    have hj1 : j < hm.buckets.length := by simpa using hj
    refine (bucketIndex_size sc hm _ b.key rfl).trans ?_
    by_cases hij : i = j
    · subst hij
      simp only [List.getElem_set_self] at hb
      exact hp b hb
    · simp only [List.getElem_set_ne hij] at hb
      exact hpl j hj1 b hb
  · intro j hj
    have hj1 : j < hm.buckets.length := by simpa using hj
    by_cases hij : i = j
    · subst hij
      simpa only [List.getElem_set_self] using hd
    · simpa only [List.getElem_set_ne hij] using hcd j hj1

theorem create_hashmap_WF (sc : Bool) (n : Nat) (hm : HashMap)
    (h : create_hashmap n = some hm) : WF sc hm := by
  unfold create_hashmap at h
  split at h
  · rename_i hn
    cases h
    refine ⟨⟨hn, by simp⟩, ?_, ?_⟩
    · intro i hi b hb
      simp at hb
    · intro i hi
      simp
  · cases h

/-- The two ways `insert_data` ends when the index is a slot of the table. -/
theorem insert_data_cases (sc : Bool) (hm : HashMap) (key : List Byte) (data : Data)
    (r : ResolveCollisionCallback) (head : List Bucket)
    (hh : hm.buckets[bucketIndex sc hm key]? = some head) :
    ((∀ b ∈ head, strcmp b.key key ≠ 0) ∧
      insert_data sc hm key data r =
        some ({ hm with
                buckets := hm.buckets.set (bucketIndex sc hm key)
                  ({ key := strdup key, data := data } :: head) }, [])) ∨
    (∃ pre b post, head = pre ++ b :: post ∧ (∀ x ∈ pre, strcmp x.key key ≠ 0) ∧
      strcmp b.key key = 0 ∧
      insert_data sc hm key data r =
        some ({ hm with
                buckets := hm.buckets.set (bucketIndex sc hm key)
                  (pre ++ { key := b.key, data := merged r b.data data } :: post) },
              resolverCalls r b.data data)) := by
  cases hl : insertLoop key data r head with
  | none =>
    left
    refine ⟨(insertLoop_eq_none_iff _ _ _ _).1 hl, ?_⟩
    simp [insert_data, hh, hl]
  | some p =>
    right
    obtain ⟨c, calls⟩ := p
    obtain ⟨pre, b, post, h1, h2, h3, h4, h5⟩ := insertLoop_eq_some _ _ _ _ _ _ hl
    refine ⟨pre, b, post, h1, h2, h3, ?_⟩
    simp [insert_data, hh, hl, h4, h5]

/-- The two ways `remove_data` ends when the index is a slot of the table. -/
theorem remove_data_cases (sc : Bool) (hm : HashMap) (key : List Byte)
    (d : DestroyDataCallback) (head : List Bucket)
    (hh : hm.buckets[bucketIndex sc hm key]? = some head) :
    ((∀ b ∈ head, strcmp b.key key ≠ 0) ∧ remove_data sc hm key d = some (hm, [])) ∨
    (∃ pre b post, head = pre ++ b :: post ∧ (∀ x ∈ pre, strcmp x.key key ≠ 0) ∧
      strcmp b.key key = 0 ∧
      remove_data sc hm key d =
        some ({ hm with buckets := hm.buckets.set (bucketIndex sc hm key) (pre ++ post) },
              if d.isSome then [b.data] else [])) := by
  cases hl : removeLoop key d head with
  | none =>
    left
    refine ⟨(removeLoop_eq_none_iff _ _ _).1 hl, ?_⟩
    simp [remove_data, hh, hl]
  | some p =>
    right
    obtain ⟨c, calls⟩ := p
    obtain ⟨pre, b, post, h1, h2, h3, h4, h5⟩ := removeLoop_eq_some _ _ _ _ _ hl
    refine ⟨pre, b, post, h1, h2, h3, ?_⟩
    simp [remove_data, hh, hl, h4, h5]

theorem insert_data_in_bounds (sc : Bool) (hm hm1 : HashMap) (key : List Byte) (data : Data)
    (r : ResolveCollisionCallback) (calls : List (Data × Data))
    (h : insert_data sc hm key data r = some (hm1, calls)) :
    ∃ head, hm.buckets[bucketIndex sc hm key]? = some head := by
  cases hh : hm.buckets[bucketIndex sc hm key]? with
  | none => simp [insert_data, hh] at h
  | some head => exact ⟨head, rfl⟩

theorem remove_data_in_bounds (sc : Bool) (hm hm1 : HashMap) (key : List Byte)
    (d : DestroyDataCallback) (calls : List Data)
    (h : remove_data sc hm key d = some (hm1, calls)) :
    ∃ head, hm.buckets[bucketIndex sc hm key]? = some head := by
  cases hh : hm.buckets[bucketIndex sc hm key]? with
  | none => simp [remove_data, hh] at h
  | some head => exact ⟨head, rfl⟩

theorem pairwise_key_congr (l1 l2 : List Bucket)
    (h : l1.map Bucket.key = l2.map Bucket.key)
    (hp : l1.Pairwise (fun a b => strcmp a.key b.key ≠ 0)) :
    l2.Pairwise (fun a b => strcmp a.key b.key ≠ 0) := by
  have e : ∀ l : List Bucket, l.Pairwise (fun a b => strcmp a.key b.key ≠ 0) ↔
      (l.map Bucket.key).Pairwise (fun x y => strcmp x y ≠ 0) := fun l => by
    rw [List.pairwise_map]
  rw [e] at hp ⊢
  rwa [← h]

theorem insert_data_WF (sc : Bool) (hm hm1 : HashMap) (key : List Byte) (data : Data)
    (r : ResolveCollisionCallback) (calls : List (Data × Data)) (hwf : WF sc hm)
    (h : insert_data sc hm key data r = some (hm1, calls)) : WF sc hm1 := by
  obtain ⟨head, hh⟩ := insert_data_in_bounds sc hm hm1 key data r calls h
  obtain ⟨hlt, hget⟩ := List.getElem?_eq_some_iff.1 hh
  have hpl := hwf.2.1 _ hlt
  have hcd := hwf.2.2 _ hlt
  rw [hget] at hpl hcd
  rcases insert_data_cases sc hm key data r head hh with ⟨hmiss, he⟩ | ⟨pre, b, post, h1, _, _, he⟩
  · rw [he] at h
    cases h
    apply WF_set sc hm _ _ hwf
    · intro x hx
      rcases List.mem_cons.1 hx with rfl | hx
      · exact bucketIndex_strdup sc hm key
      · exact hpl x hx
    · refine List.pairwise_cons.2 ⟨?_, hcd⟩
      intro x hx hc
      exact hmiss x hx (strcmp_trans (strcmp_symm hc) (strcmp_strdup_self key))
  · rw [he] at h
    cases h
    apply WF_set sc hm _ _ hwf
    · intro x hx
      subst h1
      rcases List.mem_append.1 hx with hx | hx
      · exact hpl x (List.mem_append_left _ hx)
      · rcases List.mem_cons.1 hx with rfl | hx
        · exact hpl b (List.mem_append_right _ (List.mem_cons_self _ _))
        · exact hpl x (List.mem_append_right _ (List.mem_cons_of_mem _ hx))
    · apply pairwise_key_congr head _ _ hcd
      subst h1
      simp

theorem remove_data_WF (sc : Bool) (hm hm1 : HashMap) (key : List Byte)
    (d : DestroyDataCallback) (calls : List Data) (hwf : WF sc hm)
    (h : remove_data sc hm key d = some (hm1, calls)) : WF sc hm1 := by
  obtain ⟨head, hh⟩ := remove_data_in_bounds sc hm hm1 key d calls h
  obtain ⟨hlt, hget⟩ := List.getElem?_eq_some_iff.1 hh
  have hpl := hwf.2.1 _ hlt
  have hcd := hwf.2.2 _ hlt
  rw [hget] at hpl hcd
  rcases remove_data_cases sc hm key d head hh with ⟨_, he⟩ | ⟨pre, b, post, h1, _, _, he⟩
  · rw [he] at h
    cases h
    exact hwf
  · rw [he] at h
    cases h
    have hsub : List.Sublist (pre ++ post) head := by
      subst h1
      exact List.Sublist.append (List.Sublist.refl _) (List.sublist_cons_self _ _)
    apply WF_set sc hm _ _ hwf
    · intro x hx
      exact hpl x (hsub.subset hx)
    · exact hcd.sublist hsub

theorem Reachable_WF (sc : Bool) (hm : HashMap) (h : Reachable sc hm) : WF sc hm := by
  induction h with
  | create n hm h => exact create_hashmap_WF sc n hm h
  | insert hm hm1 key data r calls _ h ih => exact insert_data_WF sc hm hm1 key data r calls ih h
  | remove hm hm1 key d calls _ h ih => exact remove_data_WF sc hm hm1 key d calls ih h

/-! ## The hash result and the capacity -/

/-- In a table of at most `2^31` slots `hash` returns a value in `[0, size)`. -/
theorem hash_range_of_le (sc : Bool) (hm : HashMap) (k : List Byte)
    (h0 : 0 < hm.size) (h1 : hm.size ≤ 2147483648) :
    0 ≤ hash sc hm k ∧ hash sc hm k < (hm.size : Int) := by
  unfold hash
  simp only
  generalize hashLoop sc k _ 0 0 = sum
  have h3 : toSizeT sum % hm.size < hm.size := Nat.mod_lt _ h0
  generalize toSizeT sum % hm.size = r at h3
  unfold toInt32
  omega

theorem bigTable_index : bucketIndex true bigTable [255] = 18446744073709551615 := by
  decide

/-- In the table of `2^32` slots the key `"\xff"` is hashed, with signed
`char`, to an index that is no slot. -/
theorem bigTable_out_of_bounds : bigTable.buckets[bucketIndex true bigTable [255]]? = none := by
  apply List.getElem?_eq_none
  rw [bigTable_index]
  show (List.replicate 4294967296 ([] : List Bucket)).length ≤ 18446744073709551615
  rw [List.length_replicate]
  decide

theorem bigTable_create : create_hashmap 4294967296 = some bigTable := by
  unfold create_hashmap bigTable
  rw [if_pos (by decide)]

theorem insert_data_undefined (sc : Bool) (hm : HashMap) (k : List Byte) (d : Data)
    (r : ResolveCollisionCallback) (h : hm.buckets[bucketIndex sc hm k]? = none) :
    insert_data sc hm k d r = none := by
  simp only [insert_data, h]

theorem remove_data_undefined (sc : Bool) (hm : HashMap) (k : List Byte)
    (destroy : DestroyDataCallback) (h : hm.buckets[bucketIndex sc hm k]? = none) :
    remove_data sc hm k destroy = none := by
  simp only [remove_data, h]

theorem get_data_undefined (sc : Bool) (hm : HashMap) (k : List Byte)
    (h : hm.buckets[bucketIndex sc hm k]? = none) : get_data sc hm (some k) = none := by
  simp only [get_data, h]

theorem bigTable_insert_undefined (d : Data) (r : ResolveCollisionCallback) :
    insert_data true bigTable [255] d r = none :=
  insert_data_undefined true bigTable [255] d r bigTable_out_of_bounds

theorem bigTable_remove_undefined (destroy : DestroyDataCallback) :
    remove_data true bigTable [255] destroy = none :=
  remove_data_undefined true bigTable [255] destroy bigTable_out_of_bounds

theorem bigTable_get_undefined : get_data true bigTable (some [255]) = none :=
  get_data_undefined true bigTable [255] bigTable_out_of_bounds

theorem bigTable_entries (b : Bucket) : b ∉ entries bigTable := by
  intro h
  obtain ⟨l, hl, hb⟩ := List.mem_flatten.1 h
  have : l = [] := List.eq_of_mem_replicate hl
  subst this
  cases hb

theorem hashLoop_range (sc : Bool) (key : List Byte) (n i : Nat) (sum : Int)
    (h : -2147483648 ≤ sum ∧ sum < 2147483648) :
    -2147483648 ≤ hashLoop sc key n i sum ∧ hashLoop sc key n i sum < 2147483648 := by
  induction n generalizing i sum with
  | zero => exact h
  | succ n ih =>
    simp only [hashLoop]
    apply ih
    unfold toInt32
    omega

/-- Whatever the capacity, the index is a slot when the byte sum of the key
is not negative. -/
theorem bucketIndex_lt_of_sum_nonneg (sc : Bool) (hm : HashMap) (k : List Byte)
    (h0 : 0 < hm.size)
    (hsum : 0 ≤ hashLoop sc k (toInt32 ((strlen k : Int) + 1)).toNat 0 0) :
    bucketIndex sc hm k < hm.size := by
  have hr := (hashLoop_range sc k (toInt32 ((strlen k : Int) + 1)).toNat 0 0
    (by omega)).2
  unfold bucketIndex hash
  simp only
  generalize hashLoop sc k _ 0 0 = sum at hsum hr
  have hs : toSizeT sum < 2147483648 := by unfold toSizeT; omega
  have h3 : toSizeT sum % hm.size < hm.size := Nat.mod_lt _ h0
  have h4 : toSizeT sum % hm.size ≤ toSizeT sum := Nat.mod_le _ _
  generalize toSizeT sum % hm.size = r at h3 h4
  generalize toSizeT sum = s at hs h4
  unfold toSizeT toInt32
  omega

/-! ## Insert followed by lookup -/

theorem mem_entries_of_slot (hm : HashMap) (i : Nat) (head : List Bucket) (b : Bucket)
    (hh : hm.buckets[i]? = some head) (hb : b ∈ head) : b ∈ entries hm :=
  List.mem_flatten.2 ⟨head, List.getElem?_mem hh, hb⟩

theorem get_data_set (sc : Bool) (hm : HashMap) (k : List Byte) (c : List Bucket)
    (h : bucketIndex sc hm k < hm.buckets.length) :
    get_data sc { hm with buckets := hm.buckets.set (bucketIndex sc hm k) c } (some k) =
      some (getLoop k c) := by
  have e : bucketIndex sc { hm with buckets := hm.buckets.set (bucketIndex sc hm k) c } k =
      bucketIndex sc hm k := bucketIndex_size sc hm _ k rfl
  simp only [get_data, e]
  rw [List.getElem?_set_self h]

theorem insert_data_defined (sc : Bool) (hm : HashMap) (k : List Byte) (d : Data)
    (r : ResolveCollisionCallback) (h : bucketIndex sc hm k < hm.buckets.length) :
    ∃ hm1 calls, insert_data sc hm k d r = some (hm1, calls) := by
  have hh : hm.buckets[bucketIndex sc hm k]? = some hm.buckets[bucketIndex sc hm k] :=
    List.getElem?_eq_getElem h
  rcases insert_data_cases sc hm k d r _ hh with ⟨_, he⟩ | ⟨_, _, _, _, _, _, he⟩
  · exact ⟨_, _, he⟩
  · exact ⟨_, _, he⟩

/-- Round trip, for a key whose index is a slot: after `insert_data` without a
resolver, or with one when the key had no entry, `get_data` returns the data. -/
theorem insert_get_of_in_bounds (sc : Bool) (hm : HashMap) (k : List Byte) (d : Data)
    (r : ResolveCollisionCallback) (h : bucketIndex sc hm k < hm.buckets.length)
    (hr : r = none ∨ ∀ b ∈ entries hm, strcmp b.key k ≠ 0) :
    ∃ hm1 calls, insert_data sc hm k d r = some (hm1, calls) ∧
      get_data sc hm1 (some k) = some d := by
  have hh : hm.buckets[bucketIndex sc hm k]? = some hm.buckets[bucketIndex sc hm k] :=
    List.getElem?_eq_getElem h
  rcases insert_data_cases sc hm k d r _ hh with ⟨_, he⟩ | ⟨pre, b, post, h1, h2, h3, he⟩
  · refine ⟨_, _, he, ?_⟩
    rw [get_data_set sc hm k _ h]
    simp [getLoop, strcmp_strdup_self]
  · refine ⟨_, _, he, ?_⟩
    rw [get_data_set sc hm k _ h,
      getLoop_hit k pre post { key := b.key, data := merged r b.data d } h2 h3]
    rcases hr with hr | hr
    · subst hr; rfl
    · exfalso
      apply hr b _ h3
      apply mem_entries_of_slot hm _ _ b hh
      rw [h1]; simp

/-- Round trip in a table of at most `2^31` slots. -/
theorem insert_get_of_le (sc : Bool) (hm : HashMap) (k : List Byte) (d : Data)
    (r : ResolveCollisionCallback) (hs : Shaped hm) (hle : hm.size ≤ 2147483648)
    (hr : r = none ∨ ∀ b ∈ entries hm, strcmp b.key k ≠ 0) :
    ∃ hm1 calls, insert_data sc hm k d r = some (hm1, calls) ∧
      get_data sc hm1 (some k) = some d :=
  insert_get_of_in_bounds sc hm k d r (by rw [hs.2]; exact bucketIndex_lt sc hm k hs.1 hle) hr

/-- With unsigned `char` the sum of `hash` stays non-negative as long as it
cannot wrap. -/
theorem hashLoop_nonneg (key : List Byte) (n i : Nat) (sum : Int)
    (h0 : 0 ≤ sum) (h1 : sum + 255 * (n : Int) < 2147483648) :
    0 ≤ hashLoop false key n i sum ∧ hashLoop false key n i sum < 2147483648 := by
  induction n generalizing i sum with
  | zero => simp only [hashLoop]; omega
  | succ n ih =>
    simp only [hashLoop]
    have hb : (key.getD i 0).val < 256 := (key.getD i 0).isLt
    have hc : charVal false (key.getD i 0) = ((key.getD i 0).val : Int) := by
      simp [charVal]
    have hw : toInt32 (sum + charVal false (key.getD i 0)) =
        sum + ((key.getD i 0).val : Int) := by
      rw [hc]; unfold toInt32; omega
    rw [hw]
    apply ih
    · omega
    · push_cast at h1 ⊢; omega

/-! ## Uniqueness of keys -/

theorem mem_entries_iff (hm : HashMap) (b : Bucket) :
    b ∈ entries hm ↔ ∃ i, ∃ h : i < hm.buckets.length, b ∈ hm.buckets[i] := by
  unfold entries
  rw [List.mem_flatten]
  constructor
  · rintro ⟨l, hl, hb⟩
    obtain ⟨i, hi, rfl⟩ := List.mem_iff_getElem.1 hl
    exact ⟨i, hi, hb⟩
  · rintro ⟨i, hi, hb⟩
    exact ⟨_, List.getElem_mem hi, hb⟩

/-- In a well-formed table any two entries, of one chain or of two, have
different keys. -/
theorem WF_entries_pairwise (sc : Bool) (hm : HashMap) (h : WF sc hm) :
    (entries hm).Pairwise (fun a b => strcmp a.key b.key ≠ 0) := by
  obtain ⟨_, hpl, hcd⟩ := h
  unfold entries
  rw [List.pairwise_flatten]
  constructor
  · intro l hl
    obtain ⟨i, hi, rfl⟩ := List.mem_iff_getElem.1 hl
    exact hcd i hi
  · rw [List.pairwise_iff_getElem]
    intro i j hi hj hij x hx y hy hc
    have e1 := hpl i hi x hx
    have e2 := hpl j hj y hy
    have := bucketIndex_of_strcmp sc hm hc
    omega

theorem countP_le_one_of_pairwise (k : List Byte) (l : List Bucket)
    (h : l.Pairwise (fun a b => strcmp a.key b.key ≠ 0)) :
    l.countP (fun b => decide (strcmp b.key k = 0)) ≤ 1 := by
  induction l with
  | nil => simp
  | cons x xs ih =>
    obtain ⟨hx, hxs⟩ := List.pairwise_cons.1 h
    by_cases hk : strcmp x.key k = 0
    · have h0 : xs.countP (fun b => decide (strcmp b.key k = 0)) = 0 := by
        rw [List.countP_eq_zero]
        intro y hy
        simp only [decide_eq_true_eq]
        intro hyk
        exact hx y hy (strcmp_trans hk (strcmp_symm hyk))
      rw [List.countP_cons_of_pos _ _ (by simpa using hk), h0]
    · rw [List.countP_cons_of_neg _ _ (by simpa using hk)]
      exact ih hxs

theorem WF_keyCount_le_one (sc : Bool) (hm : HashMap) (h : WF sc hm) (k : List Byte) :
    keyCount hm k ≤ 1 :=
  countP_le_one_of_pairwise k _ (WF_entries_pairwise sc hm h)

theorem keyCount_pos_of_mem (hm : HashMap) (k : List Byte) (b : Bucket)
    (hb : b ∈ entries hm) (hk : strcmp b.key k = 0) : 0 < keyCount hm k := by
  unfold keyCount
  rw [List.countP_pos_iff]
  exact ⟨b, hb, by simpa using hk⟩

/-- After `insert_data` the key has an entry. -/
theorem insert_data_present (sc : Bool) (hm hm1 : HashMap) (k : List Byte) (d : Data)
    (r : ResolveCollisionCallback) (calls : List (Data × Data))
    (h : insert_data sc hm k d r = some (hm1, calls)) :
    ∃ b ∈ entries hm1, strcmp b.key k = 0 := by
  obtain ⟨head, hh⟩ := insert_data_in_bounds sc hm hm1 k d r calls h
  obtain ⟨hlt, _⟩ := List.getElem?_eq_some_iff.1 hh
  rcases insert_data_cases sc hm k d r head hh with ⟨_, he⟩ | ⟨pre, b, post, _, _, h3, he⟩
  · rw [he] at h
    cases h
    refine ⟨{ key := strdup k, data := d }, ?_, strcmp_strdup_self k⟩
    apply mem_entries_of_slot _ (bucketIndex sc hm k) _ _ (List.getElem?_set_self hlt)
    simp
  · rw [he] at h
    cases h
    refine ⟨{ key := b.key, data := merged r b.data d }, ?_, h3⟩
    apply mem_entries_of_slot _ (bucketIndex sc hm k) _ _ (List.getElem?_set_self hlt)
    simp

theorem insert_data_size (sc : Bool) (hm hm1 : HashMap) (k : List Byte) (d : Data)
    (r : ResolveCollisionCallback) (calls : List (Data × Data))
    (h : insert_data sc hm k d r = some (hm1, calls)) :
    hm1.size = hm.size ∧ hm1.buckets.length = hm.buckets.length := by
  obtain ⟨head, hh⟩ := insert_data_in_bounds sc hm hm1 k d r calls h
  rcases insert_data_cases sc hm k d r head hh with ⟨_, he⟩ | ⟨pre, b, post, _, _, _, he⟩
  · rw [he] at h; cases h; simp
  · rw [he] at h; cases h; simp

theorem remove_data_size (sc : Bool) (hm hm1 : HashMap) (k : List Byte)
    (d : DestroyDataCallback) (calls : List Data)
    (h : remove_data sc hm k d = some (hm1, calls)) :
    hm1.size = hm.size ∧ hm1.buckets.length = hm.buckets.length := by
  obtain ⟨head, hh⟩ := remove_data_in_bounds sc hm hm1 k d calls h
  rcases remove_data_cases sc hm k d head hh with ⟨_, he⟩ | ⟨pre, b, post, _, _, _, he⟩
  · rw [he] at h; cases h; simp
  · rw [he] at h; cases h; simp

/-- Overwrite, for a key whose index is a slot. -/
theorem overwrite_of_in_bounds (sc : Bool) (hm : HashMap) (k : List Byte) (d1 d2 : Data)
    (r : ResolveCollisionCallback) (hwf : WF sc hm)
    (h : bucketIndex sc hm k < hm.buckets.length) :
    ∃ hm1 c1 hm2 c2, insert_data sc hm k d1 r = some (hm1, c1) ∧
      insert_data sc hm1 k d2 none = some (hm2, c2) ∧
      get_data sc hm2 (some k) = some d2 ∧ keyCount hm2 k = 1 := by
  obtain ⟨hm1, c1, e1⟩ := insert_data_defined sc hm k d1 r h
  have hwf1 := insert_data_WF sc hm hm1 k d1 r c1 hwf e1
  obtain ⟨hs1, hl1⟩ := insert_data_size sc hm hm1 k d1 r c1 e1
  have h1 : bucketIndex sc hm1 k < hm1.buckets.length := by
    rw [bucketIndex_size sc hm hm1 k hs1, hl1]; exact h
  obtain ⟨hm2, c2, e2, e3⟩ := insert_get_of_in_bounds sc hm1 k d2 none h1 (Or.inl rfl)
  have hwf2 := insert_data_WF sc hm1 hm2 k d2 none c2 hwf1 e2
  obtain ⟨b, hb, hk⟩ := insert_data_present sc hm1 hm2 k d2 none c2 e2
  have := WF_keyCount_le_one sc hm2 hwf2 k
  have := keyCount_pos_of_mem hm2 k b hb hk
  exact ⟨hm1, c1, hm2, c2, e1, e2, e3, by omega⟩

/-- Removal, for a key whose index is a slot. -/
theorem remove_get_of_in_bounds (sc : Bool) (hm : HashMap) (k : List Byte)
    (d : DestroyDataCallback) (hwf : WF sc hm)
    (h : bucketIndex sc hm k < hm.buckets.length) :
    ∃ hm1 calls, remove_data sc hm k d = some (hm1, calls) ∧
      get_data sc hm1 (some k) = some NULL := by
  have hh : hm.buckets[bucketIndex sc hm k]? = some hm.buckets[bucketIndex sc hm k] :=
    List.getElem?_eq_getElem h
  rcases remove_data_cases sc hm k d _ hh with ⟨hmiss, he⟩ | ⟨pre, b, post, h1, h2, h3, he⟩
  · refine ⟨_, _, he, ?_⟩
    simp only [get_data, hh]
    rw [getLoop_of_miss k _ hmiss]
  · refine ⟨_, _, he, ?_⟩
    rw [get_data_set sc hm k _ h]
    have hcd := hwf.2.2 _ h
    rw [h1, List.pairwise_append] at hcd
    have hpost : ∀ x ∈ post, strcmp x.key k ≠ 0 := by
      intro x hx hc
      exact (List.pairwise_cons.1 hcd.2.1).1 x hx (strcmp_trans h3 (strcmp_symm hc))
    rw [getLoop_of_miss]
    intro x hx
    rcases List.mem_append.1 hx with hx | hx
    · exact h2 x hx
    · exact hpost x hx

/-- Removal of a key that has no entry, when its index is a slot. -/
theorem remove_absent_of_in_bounds (sc : Bool) (hm : HashMap) (k : List Byte)
    (d : DestroyDataCallback) (h : bucketIndex sc hm k < hm.buckets.length)
    (habs : ∀ b ∈ entries hm, strcmp b.key k ≠ 0) :
    remove_data sc hm k d = some (hm, []) := by
  have hh : hm.buckets[bucketIndex sc hm k]? = some hm.buckets[bucketIndex sc hm k] :=
    List.getElem?_eq_getElem h
  rcases remove_data_cases sc hm k d _ hh with ⟨_, he⟩ | ⟨pre, b, post, h1, _, h3, _⟩
  · exact he
  · exfalso
    apply habs b _ h3
    apply mem_entries_of_slot hm _ _ b hh
    rw [h1]; simp

theorem in_bounds_of_le (sc : Bool) (hm : HashMap) (k : List Byte) (hs : Shaped hm)
    (hle : hm.size ≤ 2147483648) : bucketIndex sc hm k < hm.buckets.length := by
  rw [hs.2]; exact bucketIndex_lt sc hm k hs.1 hle

/-- Overwrite in a table of at most `2^31` slots. -/
theorem overwrite_of_le (sc : Bool) (hm : HashMap) (k : List Byte) (d1 d2 : Data)
    (r : ResolveCollisionCallback) (hwf : WF sc hm) (hle : hm.size ≤ 2147483648) :
    ∃ hm1 c1 hm2 c2, insert_data sc hm k d1 r = some (hm1, c1) ∧
      insert_data sc hm1 k d2 none = some (hm2, c2) ∧
      get_data sc hm2 (some k) = some d2 ∧ keyCount hm2 k = 1 :=
  overwrite_of_in_bounds sc hm k d1 d2 r hwf (in_bounds_of_le sc hm k hwf.1 hle)

/-- Removal in a reachable table of at most `2^31` slots. -/
theorem remove_get_of_le (sc : Bool) (hm : HashMap) (k : List Byte)
    (d : DestroyDataCallback) (hr : Reachable sc hm) (hle : hm.size ≤ 2147483648) :
    ∃ hm1 calls, remove_data sc hm k d = some (hm1, calls) ∧
      get_data sc hm1 (some k) = some NULL :=
  remove_get_of_in_bounds sc hm k d (Reachable_WF sc hm hr)
    (in_bounds_of_le sc hm k (Reachable_WF sc hm hr).1 hle)

/-- Removal of an absent key in a table of at most `2^31` slots: the table is
left as it is and the destroy function is not called. -/
theorem remove_absent_of_le (sc : Bool) (hm : HashMap) (k : List Byte)
    (d : DestroyDataCallback) (hs : Shaped hm) (hle : hm.size ≤ 2147483648)
    (habs : ∀ b ∈ entries hm, strcmp b.key k ≠ 0) :
    remove_data sc hm k d = some (hm, []) :=
  remove_absent_of_in_bounds sc hm k d (in_bounds_of_le sc hm k hs hle) habs

/-! ## Iteration and teardown -/

theorem iterateChain_eq (chain : List Bucket) :
    iterateChain chain = chain.map (fun b => (b.key, b.data)) := by
  induction chain with
  | nil => rfl
  | cons x xs ih => simp [iterateChain, ih]

theorem deleteChain_some (f : Data → Unit) (chain : List Bucket) :
    deleteChain (some f) chain = chain.map Bucket.data := by
  induction chain with
  | nil => rfl
  | cons x xs ih => simp [deleteChain, ih]

theorem deleteChain_none (chain : List Bucket) : deleteChain none chain = [] := by
  induction chain with
  | nil => rfl
  | cons x xs ih => simp [deleteChain, ih]

theorem iterateLoop_eq (hm : HashMap) (n i : Nat) (h : i + n = hm.buckets.length) :
    iterateLoop hm n i =
      some ((hm.buckets.drop i).flatten.map (fun b => (b.key, b.data))) := by
  induction n generalizing i with
  | zero =>
    have : hm.buckets.drop i = [] := List.drop_eq_nil_of_le (by omega)
    simp [iterateLoop, this]
  | succ n ih =>
    have hi : i < hm.buckets.length := by omega
    have hd : hm.buckets.drop i = hm.buckets[i] :: hm.buckets.drop (i + 1) :=
      List.drop_eq_getElem_cons hi
    simp only [iterateLoop, List.getElem?_eq_getElem hi, ih (i + 1) (by omega), hd,
      List.flatten_cons, List.map_append, iterateChain_eq]

theorem deleteLoop_eq (hm : HashMap) (d : DestroyDataCallback) (n i : Nat)
    (h : i + n = hm.buckets.length) :
    deleteLoop hm d n i = some (((hm.buckets.drop i).map (deleteChain d)).flatten) := by
  induction n generalizing i with
  | zero =>
    have : hm.buckets.drop i = [] := List.drop_eq_nil_of_le (by omega)
    simp [deleteLoop, this]
  | succ n ih =>
    have hi : i < hm.buckets.length := by omega
    have hd : hm.buckets.drop i = hm.buckets[i] :: hm.buckets.drop (i + 1) :=
      List.drop_eq_getElem_cons hi
    simp only [deleteLoop, List.getElem?_eq_getElem hi, ih (i + 1) (by omega), hd,
      List.map_cons, List.flatten_cons]

/-- On a table with as many slots as its capacity, `iterate` calls the visitor
on the entries of chain `0`, then of chain `1`, and so on, each chain from head
to tail. -/
theorem iterate_eq (hm : HashMap) (h : hm.buckets.length = hm.size) :
    iterate hm = some ((entries hm).map (fun b => (b.key, b.data))) := by
  unfold iterate entries
  rw [iterateLoop_eq hm hm.size 0 (by omega)]
  simp

/-- On a table with as many slots as its capacity, `delete_hashmap` with a
destroy function calls it on the data of every entry, in iteration order. -/
theorem delete_hashmap_some (hm : HashMap) (f : Data → Unit)
    (h : hm.buckets.length = hm.size) :
    delete_hashmap hm (some f) = some ((entries hm).map Bucket.data) := by
  unfold delete_hashmap entries
  rw [deleteLoop_eq hm (some f) hm.size 0 (by omega)]
  simp only [List.drop_zero, List.map_flatten]
  congr 2
  apply List.map_congr_left
  intro c _
  exact deleteChain_some f c

/-! ## Sequences of inserts -/

theorem mem_entries_set (hm : HashMap) (i : Nat) (c : List Bucket) (b : Bucket)
    (hi : i < hm.buckets.length) :
    b ∈ entries { hm with buckets := hm.buckets.set i c } ↔
      b ∈ c ∨ ∃ j, ∃ h : j < hm.buckets.length, j ≠ i ∧ b ∈ hm.buckets[j] := by
  rw [mem_entries_iff]
  constructor
  · rintro ⟨j, hj, hb⟩
    have hj1 : j < hm.buckets.length := by simpa using hj
    by_cases hij : i = j
    · subst hij
      left
      simpa only [List.getElem_set_self] using hb
    · right
      refine ⟨j, hj1, fun e => hij e.symm, ?_⟩
      simpa only [List.getElem_set_ne hij] using hb
  · rintro (hb | ⟨j, hj, hji, hb⟩)
    · refine ⟨i, by simpa using hi, ?_⟩
      simpa only [List.getElem_set_self] using hb
    · refine ⟨j, by simpa using hj, ?_⟩
      simpa only [List.getElem_set_ne (fun e => hji e.symm)] using hb

/-- The entries after an `insert_data` on a well-formed table: the entry of
the inserted key, and the entries of all other keys as they were. -/
theorem insert_data_entries (sc : Bool) (hm hm1 : HashMap) (k : List Byte) (d : Data)
    (r : ResolveCollisionCallback) (calls : List (Data × Data)) (hwf : WF sc hm)
    (h : insert_data sc hm k d r = some (hm1, calls)) (b1 : Bucket) (hb1 : b1 ∈ entries hm1) :
    (strcmp b1.key k = 0 ∧ (r = none → b1.data = d)) ∨
    (strcmp b1.key k ≠ 0 ∧ b1 ∈ entries hm) := by
  obtain ⟨head, hh⟩ := insert_data_in_bounds sc hm hm1 k d r calls h
  obtain ⟨hlt, hget⟩ := List.getElem?_eq_some_iff.1 hh
  have hother : ∀ j, ∀ hj : j < hm.buckets.length, j ≠ bucketIndex sc hm k →
      b1 ∈ hm.buckets[j] → strcmp b1.key k ≠ 0 ∧ b1 ∈ entries hm := by
    intro j hj hne hb
    refine ⟨fun hc => hne ?_, (mem_entries_iff hm b1).2 ⟨j, hj, hb⟩⟩
    rw [← hwf.2.1 j hj b1 hb]
    exact bucketIndex_of_strcmp sc hm hc
  have hin : ∀ x ∈ head, x ∈ entries hm := fun x hx =>
    mem_entries_of_slot hm _ head x hh hx
  rcases insert_data_cases sc hm k d r head hh with
    ⟨hmiss, he⟩ | ⟨pre, b, post, h1, h2, h3, he⟩
  · rw [he] at h
    cases h
    rcases (mem_entries_set hm _ _ b1 hlt).1 hb1 with hb | ⟨j, hj, hne, hb⟩
    · rcases List.mem_cons.1 hb with rfl | hb
      · exact Or.inl ⟨strcmp_strdup_self k, fun _ => rfl⟩
      · exact Or.inr ⟨hmiss b1 hb, hin b1 hb⟩
    · exact Or.inr (hother j hj hne hb)
  · rw [he] at h
    cases h
    have hcd := hwf.2.2 _ hlt
    rw [hget, h1, List.pairwise_append] at hcd
    rcases (mem_entries_set hm _ _ b1 hlt).1 hb1 with hb | ⟨j, hj, hne, hb⟩
    · rcases List.mem_append.1 hb with hb | hb
      · exact Or.inr ⟨h2 b1 hb, hin b1 (by rw [h1]; exact List.mem_append_left _ hb)⟩
      · rcases List.mem_cons.1 hb with rfl | hb
        · refine Or.inl ⟨h3, fun hr => ?_⟩
          subst hr; rfl
        · refine Or.inr ⟨fun hc => ?_, hin b1 (by rw [h1]; simp [hb])⟩
          exact (List.pairwise_cons.1 hcd.2.1).1 b1 hb (strcmp_trans h3 (strcmp_symm hc))
    · exact Or.inr (hother j hj hne hb)

/-- Every key that has an entry before an `insert_data` has one afterwards. -/
theorem insert_data_keeps_keys (sc : Bool) (hm hm1 : HashMap) (k : List Byte) (d : Data)
    (r : ResolveCollisionCallback) (calls : List (Data × Data))
    (h : insert_data sc hm k d r = some (hm1, calls)) (b : Bucket) (hb : b ∈ entries hm) :
    ∃ b1 ∈ entries hm1, b1.key = b.key := by
  obtain ⟨head, hh⟩ := insert_data_in_bounds sc hm hm1 k d r calls h
  obtain ⟨hlt, hget⟩ := List.getElem?_eq_some_iff.1 hh
  obtain ⟨j, hj, hbj⟩ := (mem_entries_iff hm b).1 hb
  have hhead : j = bucketIndex sc hm k → b ∈ head := by
    intro hji
    have e : hm.buckets[j]? = some head := by rw [hji]; exact hh
    obtain ⟨_, e1⟩ := List.getElem?_eq_some_iff.1 e
    rw [← e1]; exact hbj
  rcases insert_data_cases sc hm k d r head hh with
    ⟨_, he⟩ | ⟨pre, b0, post, h1, _, _, he⟩
  · rw [he] at h
    cases h
    refine ⟨b, (mem_entries_set hm _ _ b hlt).2 ?_, rfl⟩
    by_cases hji : j = bucketIndex sc hm k
    · exact Or.inl (List.mem_cons_of_mem _ (hhead hji))
    · exact Or.inr ⟨j, hj, hji, hbj⟩
  · rw [he] at h
    cases h
    by_cases hji : j = bucketIndex sc hm k
    · have hx := hhead hji
      rw [h1] at hx
      rcases List.mem_append.1 hx with hx | hx
      · exact ⟨b, (mem_entries_set hm _ _ b hlt).2 (Or.inl (List.mem_append_left _ hx)), rfl⟩
      · rcases List.mem_cons.1 hx with rfl | hx
        · exact ⟨_, (mem_entries_set hm _ _ _ hlt).2
            (Or.inl (List.mem_append_right _ (List.mem_cons_self _ _))), rfl⟩
        · exact ⟨b, (mem_entries_set hm _ _ b hlt).2
            (Or.inl (List.mem_append_right _ (List.mem_cons_of_mem _ hx))), rfl⟩
    · exact ⟨b, (mem_entries_set hm _ _ b hlt).2 (Or.inr ⟨j, hj, hji, hbj⟩), rfl⟩

theorem insertAll_cons (sc : Bool) (hm hm2 : HashMap) (k : List Byte) (d : Data)
    (r : ResolveCollisionCallback) (rest : List (List Byte × Data × ResolveCollisionCallback))
    (h : insertAll sc hm ((k, d, r) :: rest) = some hm2) :
    ∃ hm1 calls, insert_data sc hm k d r = some (hm1, calls) ∧
      insertAll sc hm1 rest = some hm2 := by
  cases he : insert_data sc hm k d r with
  | none => simp [insertAll, he] at h
  | some p =>
    obtain ⟨hm1, calls⟩ := p
    simp only [insertAll, he] at h
    exact ⟨hm1, calls, rfl, h⟩

theorem insertAll_WF (sc : Bool) (hm hm2 : HashMap)
    (ops : List (List Byte × Data × ResolveCollisionCallback)) (hwf : WF sc hm)
    (h : insertAll sc hm ops = some hm2) : WF sc hm2 := by
  induction ops generalizing hm with
  | nil => simp only [insertAll, Option.some.injEq] at h; exact h ▸ hwf
  | cons op rest ih =>
    obtain ⟨k, d, r⟩ := op
    obtain ⟨hm1, calls, e1, e2⟩ := insertAll_cons sc hm hm2 k d r rest h
    exact ih hm1 (insert_data_WF sc hm hm1 k d r calls hwf e1) e2

theorem insertAll_keeps_keys (sc : Bool) (hm hm2 : HashMap)
    (ops : List (List Byte × Data × ResolveCollisionCallback))
    (h : insertAll sc hm ops = some hm2) (b : Bucket) (hb : b ∈ entries hm) :
    ∃ b2 ∈ entries hm2, b2.key = b.key := by
  induction ops generalizing hm b with
  | nil => simp only [insertAll, Option.some.injEq] at h; exact ⟨b, h ▸ hb, rfl⟩
  | cons op rest ih =>
    obtain ⟨k, d, r⟩ := op
    obtain ⟨hm1, calls, e1, e2⟩ := insertAll_cons sc hm hm2 k d r rest h
    obtain ⟨b1, hb1, hk1⟩ := insert_data_keeps_keys sc hm hm1 k d r calls e1 b hb
    obtain ⟨b2, hb2, hk2⟩ := ih hm1 e2 b1 hb1
    exact ⟨b2, hb2, hk2.trans hk1⟩

/-- After a sequence of inserts every inserted key has an entry. -/
theorem insertAll_present (sc : Bool) (hm hm2 : HashMap)
    (ops : List (List Byte × Data × ResolveCollisionCallback))
    (h : insertAll sc hm ops = some hm2) (op : List Byte × Data × ResolveCollisionCallback)
    (hop : op ∈ ops) : ∃ b ∈ entries hm2, strcmp b.key op.1 = 0 := by
  induction ops generalizing hm with
  | nil => cases hop
  | cons op1 rest ih =>
    obtain ⟨k, d, r⟩ := op1
    obtain ⟨hm1, calls, e1, e2⟩ := insertAll_cons sc hm hm2 k d r rest h
    rcases List.mem_cons.1 hop with rfl | hop
    · obtain ⟨b1, hb1, hk1⟩ := insert_data_present sc hm hm1 k d r calls e1
      obtain ⟨b2, hb2, hk2⟩ := insertAll_keeps_keys sc hm1 hm2 rest e2 b1 hb1
      exact ⟨b2, hb2, by rw [hk2]; exact hk1⟩
    · exact ih hm1 e2 hop

/-- After a sequence of inserts every entry is one the table had before or has
the key of one of the inserts. -/
theorem insertAll_origin (sc : Bool) (hm hm2 : HashMap)
    (ops : List (List Byte × Data × ResolveCollisionCallback)) (hwf : WF sc hm)
    (h : insertAll sc hm ops = some hm2) (b : Bucket) (hb : b ∈ entries hm2) :
    (∃ op ∈ ops, strcmp b.key op.1 = 0) ∨ b ∈ entries hm := by
  induction ops generalizing hm with
  | nil => simp only [insertAll, Option.some.injEq] at h; exact Or.inr (h ▸ hb)
  | cons op1 rest ih =>
    obtain ⟨k, d, r⟩ := op1
    obtain ⟨hm1, calls, e1, e2⟩ := insertAll_cons sc hm hm2 k d r rest h
    rcases ih hm1 (insert_data_WF sc hm hm1 k d r calls hwf e1) e2 with
      ⟨op, hop, hk⟩ | hb1
    · exact Or.inl ⟨op, List.mem_cons_of_mem _ hop, hk⟩
    · rcases insert_data_entries sc hm hm1 k d r calls hwf e1 b hb1 with ⟨hk, _⟩ | ⟨_, hb0⟩
      · exact Or.inl ⟨(k, d, r), List.mem_cons_self _ _, hk⟩
      · exact Or.inr hb0

theorem insertAll_size (sc : Bool) (hm hm2 : HashMap)
    (ops : List (List Byte × Data × ResolveCollisionCallback))
    (h : insertAll sc hm ops = some hm2) :
    hm2.size = hm.size ∧ hm2.buckets.length = hm.buckets.length := by
  induction ops generalizing hm with
  | nil => simp only [insertAll, Option.some.injEq] at h; subst h; exact ⟨rfl, rfl⟩
  | cons op rest ih =>
    obtain ⟨k, d, r⟩ := op
    obtain ⟨hm1, calls, e1, e2⟩ := insertAll_cons sc hm hm2 k d r rest h
    obtain ⟨a1, a2⟩ := insert_data_size sc hm hm1 k d r calls e1
    obtain ⟨b1, b2⟩ := ih hm1 e2
    exact ⟨b1.trans a1, b2.trans a2⟩

/-- In a table of at most `2^31` slots every sequence of inserts is defined. -/
theorem insertAll_defined (sc : Bool) (hm : HashMap)
    (ops : List (List Byte × Data × ResolveCollisionCallback)) (hs : Shaped hm)
    (hle : hm.size ≤ 2147483648) : ∃ hm2, insertAll sc hm ops = some hm2 := by
  induction ops generalizing hm with
  | nil => exact ⟨hm, rfl⟩
  | cons op rest ih =>
    obtain ⟨k, d, r⟩ := op
    obtain ⟨hm1, calls, e1⟩ := insert_data_defined sc hm k d r
      (by rw [hs.2]; exact bucketIndex_lt sc hm k hs.1 hle)
    obtain ⟨a1, a2⟩ := insert_data_size sc hm hm1 k d r calls e1
    obtain ⟨hm2, e2⟩ := ih hm1 ⟨by rw [a1]; exact hs.1, by rw [a1, a2]; exact hs.2⟩
      (by rw [a1]; exact hle)
    exact ⟨hm2, by simp only [insertAll, e1, e2]⟩

theorem lastWrite_some (ops : List (List Byte × Data)) (key : List Byte) (d : Data)
    (h : lastWrite ops key = some d) : ∃ p ∈ ops, strcmp p.1 key = 0 := by
  induction ops generalizing d with
  | nil => simp [lastWrite] at h
  | cons p rest ih =>
    obtain ⟨k, x⟩ := p
    cases hr : lastWrite rest key with
    | some y =>
      obtain ⟨q, hq, hk⟩ := ih y hr
      exact ⟨q, List.mem_cons_of_mem _ hq, hk⟩
    | none =>
      by_cases hk : strcmp k key = 0
      · exact ⟨(k, x), List.mem_cons_self _ _, hk⟩
      · simp [lastWrite, hr, hk] at h

/-- After a sequence of inserts without resolver, every entry either carries
the data of the last insert of its key, or its key was not inserted and the
entry is one the table had before. -/
theorem insertAll_lastWrite (sc : Bool) (hm hm2 : HashMap) (ops : List (List Byte × Data))
    (hwf : WF sc hm) (h : insertAll sc hm (noResolver ops) = some hm2) (b : Bucket)
    (hb : b ∈ entries hm2) :
    lastWrite ops b.key = some b.data ∨ (lastWrite ops b.key = none ∧ b ∈ entries hm) := by
  induction ops generalizing hm with
  | nil =>
    simp only [noResolver, List.map_nil, insertAll, Option.some.injEq] at h
    exact Or.inr ⟨rfl, h ▸ hb⟩
  | cons p rest ih =>
    obtain ⟨k, d⟩ := p
    obtain ⟨hm1, calls, e1, e2⟩ := insertAll_cons sc hm hm2 k d none (noResolver rest) h
    rcases ih hm1 (insert_data_WF sc hm hm1 k d none calls hwf e1) e2 with hl | ⟨hl, hb1⟩
    · left
      simp only [lastWrite, hl]
    · rcases insert_data_entries sc hm hm1 k d none calls hwf e1 b hb1 with
        ⟨hk, hd⟩ | ⟨hk, hb0⟩
      · left
        simp only [lastWrite, hl, strcmp_symm hk, if_true, hd rfl]
      · right
        have : strcmp k b.key ≠ 0 := fun hc => hk (strcmp_symm hc)
        simp only [lastWrite, hl, this, if_false]
        exact ⟨trivial, hb0⟩

/-- Iteration after a sequence of inserts without resolver into a fresh table:
the visitor is called once per distinct key, with the data of the last insert
of that key. -/
theorem iterate_after_inserts (sc : Bool) (n : Nat) (hm0 hm : HashMap)
    (ops : List (List Byte × Data)) (hc : create_hashmap n = some hm0)
    (hi : insertAll sc hm0 (noResolver ops) = some hm) :
    ∃ visits, iterate hm = some visits ∧
      visits.length = ((ops.map (fun p => strdup p.1)).dedup).length ∧
      visits.Pairwise (fun v w => strcmp v.1 w.1 ≠ 0) ∧
      (∀ p ∈ ops, ∃ v ∈ visits, strcmp v.1 p.1 = 0) ∧
      (∀ v ∈ visits, lastWrite ops v.1 = some v.2) := by
  have hwf0 := create_hashmap_WF sc n hm0 hc
  have hwf := insertAll_WF sc hm0 hm _ hwf0 hi
  have hempty : ∀ b, b ∉ entries hm0 := by
    intro b hb
    unfold create_hashmap at hc
    split at hc
    · cases hc
      obtain ⟨l, hl, hbl⟩ := List.mem_flatten.1 hb
      have : l = [] := List.eq_of_mem_replicate hl
      subst this
      cases hbl
    · cases hc
  have hlast : ∀ b ∈ entries hm, lastWrite ops b.key = some b.data := by
    intro b hb
    rcases insertAll_lastWrite sc hm0 hm ops hwf0 hi b hb with hl | ⟨_, hb0⟩
    · exact hl
    · exact absurd hb0 (hempty b)
  have hpres : ∀ p ∈ ops, ∃ b ∈ entries hm, strcmp b.key p.1 = 0 := by
    intro p hp
    have : (p.1, p.2, (none : ResolveCollisionCallback)) ∈ noResolver ops :=
      List.mem_map.2 ⟨p, hp, rfl⟩
    exact insertAll_present sc hm0 hm _ hi _ this
  have hpw := WF_entries_pairwise sc hm hwf
  refine ⟨_, iterate_eq hm hwf.1.2, ?_, ?_, ?_, ?_⟩
  · have hnd : ((entries hm).map (fun b => strdup b.key)).Nodup := by
      rw [List.Nodup, List.pairwise_map]
      exact hpw.imp (fun {a b} hab hc => hab ((strcmp_eq_zero_iff _ _).2 hc))
    have hperm : List.Perm ((entries hm).map (fun b => strdup b.key))
        ((ops.map (fun p => strdup p.1)).dedup) := by
      rw [List.perm_ext_iff_of_nodup hnd (List.nodup_dedup _)]
      intro a
      rw [List.mem_dedup, List.mem_map, List.mem_map]
      constructor
      · rintro ⟨b, hb, rfl⟩
        obtain ⟨p, hp, hk⟩ := lastWrite_some ops b.key b.data (hlast b hb)
        exact ⟨p, hp, (strcmp_eq_zero_iff _ _).1 hk⟩
      · rintro ⟨p, hp, rfl⟩
        obtain ⟨b, hb, hk⟩ := hpres p hp
        exact ⟨b, hb, (strcmp_eq_zero_iff _ _).1 hk⟩
    simpa using hperm.length_eq
  · rw [List.pairwise_map]
    exact hpw
  · intro p hp
    obtain ⟨b, hb, hk⟩ := hpres p hp
    exact ⟨(b.key, b.data), List.mem_map.2 ⟨b, hb, rfl⟩, hk⟩
  · intro v hv
    obtain ⟨b, hb, rfl⟩ := List.mem_map.1 hv
    exact hlast b hb

/-- Iteration completeness for a capacity of at most `2^31`: the inserts are
defined, and `iterate` calls the visitor once per distinct key, with the data
of the last insert of that key. -/
theorem iterate_after_inserts_of_le (sc : Bool) (n : Nat) (ops : List (List Byte × Data))
    (h0 : 0 < n) (hle : n ≤ 2147483648) :
    ∃ hm0 hm visits, create_hashmap n = some hm0 ∧
      insertAll sc hm0 (noResolver ops) = some hm ∧ iterate hm = some visits ∧
      visits.length = ((ops.map (fun p => strdup p.1)).dedup).length ∧
      visits.Pairwise (fun v w => strcmp v.1 w.1 ≠ 0) ∧
      (∀ p ∈ ops, ∃ v ∈ visits, strcmp v.1 p.1 = 0) ∧
      (∀ v ∈ visits, lastWrite ops v.1 = some v.2) := by
  have hc : create_hashmap n = some { buckets := List.replicate n [], size := n } := by
    simp [create_hashmap, h0]
  have hwf := create_hashmap_WF sc n _ hc
  obtain ⟨hm, hi⟩ := insertAll_defined sc _ (noResolver ops) hwf.1 hle
  obtain ⟨visits, hv⟩ := iterate_after_inserts sc n _ hm ops hc hi
  exact ⟨_, hm, visits, hc, hi, hv⟩

/-! ## Order within a chain -/

theorem chainKeys_set (hm : HashMap) (i j : Nat) (c : List Bucket)
    (hi : i < hm.buckets.length) :
    chainKeys { hm with buckets := hm.buckets.set i c } j =
      if j = i then c.map Bucket.key else chainKeys hm j := by
  unfold chainKeys
  by_cases hji : j = i
  · subst hji
    simp [List.getElem?_set_self hi]
  · simp [hji, List.getElem?_set_ne (fun e => hji e.symm)]

theorem chainKeys_of_slot (hm : HashMap) (i : Nat) (head : List Bucket)
    (hh : hm.buckets[i]? = some head) : chainKeys hm i = head.map Bucket.key := by
  simp [chainKeys, hh]

/-- An `insert_data` leaves the keys of every chain in place, or puts one new
key before them. -/
theorem insert_data_chainKeys (sc : Bool) (hm hm1 : HashMap) (k : List Byte) (d : Data)
    (r : ResolveCollisionCallback) (calls : List (Data × Data))
    (h : insert_data sc hm k d r = some (hm1, calls)) (j : Nat) :
    ∃ new, chainKeys hm1 j = new ++ chainKeys hm j := by
  obtain ⟨head, hh⟩ := insert_data_in_bounds sc hm hm1 k d r calls h
  obtain ⟨hlt, _⟩ := List.getElem?_eq_some_iff.1 hh
  rcases insert_data_cases sc hm k d r head hh with
    ⟨_, he⟩ | ⟨pre, b, post, h1, _, _, he⟩
  · rw [he] at h
    cases h
    rw [chainKeys_set hm _ j _ hlt]
    by_cases hj : j = bucketIndex sc hm k
    · rw [if_pos hj, hj]
      exact ⟨[strdup k], by simp [chainKeys_of_slot hm _ head hh]⟩
    · rw [if_neg hj]
      exact ⟨[], rfl⟩
  · rw [he] at h
    cases h
    rw [chainKeys_set hm _ j _ hlt]
    by_cases hj : j = bucketIndex sc hm k
    · rw [if_pos hj, hj]
      exact ⟨[], by simp [chainKeys_of_slot hm _ head hh, h1]⟩
    · rw [if_neg hj]
      exact ⟨[], rfl⟩

/-- An `insert_data` of a key that has no entry puts the key at the head of
its chain. -/
theorem insert_data_chainKeys_new (sc : Bool) (hm hm1 : HashMap) (k : List Byte) (d : Data)
    (r : ResolveCollisionCallback) (calls : List (Data × Data))
    (habs : ∀ b ∈ entries hm, strcmp b.key k ≠ 0)
    (h : insert_data sc hm k d r = some (hm1, calls)) :
    chainKeys hm1 (bucketIndex sc hm k) = strdup k :: chainKeys hm (bucketIndex sc hm k) := by
  obtain ⟨head, hh⟩ := insert_data_in_bounds sc hm hm1 k d r calls h
  obtain ⟨hlt, _⟩ := List.getElem?_eq_some_iff.1 hh
  rcases insert_data_cases sc hm k d r head hh with
    ⟨_, he⟩ | ⟨pre, b, post, h1, _, h3, he⟩
  · rw [he] at h
    cases h
    rw [chainKeys_set hm _ _ _ hlt]
    simp [chainKeys_of_slot hm _ head hh]
  · exfalso
    apply habs b _ h3
    apply mem_entries_of_slot hm _ _ b hh
    rw [h1]; simp

theorem insertAll_chainKeys (sc : Bool) (hm hm2 : HashMap)
    (ops : List (List Byte × Data × ResolveCollisionCallback))
    (h : insertAll sc hm ops = some hm2) (j : Nat) :
    ∃ new, chainKeys hm2 j = new ++ chainKeys hm j := by
  induction ops generalizing hm with
  | nil => simp only [insertAll, Option.some.injEq] at h; subst h; exact ⟨[], rfl⟩
  | cons op rest ih =>
    obtain ⟨k, d, r⟩ := op
    obtain ⟨hm1, calls, e1, e2⟩ := insertAll_cons sc hm hm2 k d r rest h
    obtain ⟨n1, a1⟩ := insert_data_chainKeys sc hm hm1 k d r calls e1 j
    obtain ⟨n2, a2⟩ := ih hm1 e2
    exact ⟨n2 ++ n1, by rw [a2, a1, List.append_assoc]⟩

theorem flatten_split {α : Type} (L : List (List α)) (i : Nat) (hi : i < L.length) :
    L.flatten = ((L.take i).flatten ++ L[i]) ++ (L.drop (i + 1)).flatten := by
  have e : L.take i ++ L[i] :: L.drop (i + 1) = L := by
    rw [← List.drop_eq_getElem_cons hi, List.take_append_drop]
  have e1 := congrArg List.flatten e
  rw [List.flatten_append, List.flatten_cons, ← List.append_assoc] at e1
  exact e1.symm

/-- The keys `iterate` visits are the keys of the chains before slot `i`, then
those of chain `i`, then those of the chains after it. -/
theorem entries_keys_split (hm : HashMap) (i : Nat) (hi : i < hm.buckets.length) :
    (entries hm).map Bucket.key =
      ((hm.buckets.take i).flatten.map Bucket.key ++ chainKeys hm i) ++
        (hm.buckets.drop (i + 1)).flatten.map Bucket.key := by
  rw [chainKeys_of_slot hm i _ (List.getElem?_eq_getElem hi)]
  unfold entries
  rw [flatten_split hm.buckets i hi, List.map_append, List.map_append]

theorem insertAll_undefined (sc : Bool) (hm : HashMap) (k : List Byte) (d : Data)
    (r : ResolveCollisionCallback) (rest : List (List Byte × Data × ResolveCollisionCallback))
    (h : insert_data sc hm k d r = none) : insertAll sc hm ((k, d, r) :: rest) = none := by
  simp only [insertAll, h]

/-! ## The hash and the byte sum -/

theorem hashLoop_cons (sc : Bool) (c : Byte) (rest : List Byte) (n i : Nat) (sum : Int) :
    hashLoop sc (c :: rest) n (i + 1) sum = hashLoop sc rest n i sum := by
  induction n generalizing i sum with
  | zero => rfl
  | succ n ih =>
    simp only [hashLoop, List.getD_cons_succ]
    exact ih (i + 1) _

theorem byteSum_nil : byteSum [] = 0 := by decide

theorem byteSum_cons_zero (rest : List Byte) : byteSum (0 :: rest) = 0 := by
  simp [byteSum, strdup]

theorem byteSum_cons (c : Byte) (rest : List Byte) (hc : c ≠ 0) :
    byteSum (c :: rest) = c.val + byteSum rest := by
  simp [byteSum, strdup, hc]

theorem byteSum_le (key : List Byte) : byteSum key ≤ 255 * strlen key := by
  induction key with
  | nil => simp [byteSum_nil, strlen]
  | cons c rest ih =>
    by_cases hc : c = 0
    · subst hc; simp [byteSum_cons_zero, strlen]
    · rw [byteSum_cons c rest hc]
      simp only [strlen, hc, if_false]
      have := c.isLt
      omega

/-- As long as no byte reads as a negative `char` and the sum cannot wrap, the
loop of `hash` adds the byte sum to the accumulator. -/
theorem hashLoop_eq_byteSum (sc : Bool) (key : List Byte) (sum : Int)
    (hpos : ∀ b ∈ strdup key, charVal sc b = (b.val : Int)) (h0 : 0 ≤ sum)
    (hlt : sum + 255 * (strlen key : Int) < 2147483648) :
    hashLoop sc key (strlen key + 1) 0 sum = sum + (byteSum key : Int) := by
  induction key generalizing sum with
  | nil =>
    simp [hashLoop, strlen, byteSum_nil, charVal, toInt32]
    omega
  | cons c rest ih =>
    by_cases hc : c = 0
    · subst hc
      simp [hashLoop, strlen, byteSum_cons_zero, charVal, toInt32]
      omega
    · have hcv : charVal sc c = (c.val : Int) :=
        hpos c (by simp [strdup, hc])
      have hcl := c.isLt
      simp only [strlen, hc, if_false] at hlt ⊢
      push_cast at hlt
      rw [hashLoop]
      simp only [List.getD_cons_zero, hcv]
      have hw : toInt32 (sum + (c.val : Int)) = sum + (c.val : Int) := by
        unfold toInt32; omega
      rw [hw, hashLoop_cons, ih]
      · rw [byteSum_cons c rest hc]; push_cast; omega
      · intro b hb
        exact hpos b (by simp [strdup, hc, hb])
      · omega
      · omega

/-- The hash of the specification is what `hash` returns when no byte of the
key reads as a negative `char` (plain `char` unsigned, or all bytes below
`0x80`) and the key has fewer than `8421504` bytes. -/
theorem hash_eq_hashSpec (sc : Bool) (hm : HashMap) (key : List Byte)
    (hpos : ∀ b ∈ strdup key, charVal sc b = (b.val : Int))
    (hlen : strlen key < 8421504) :
    hash sc hm key = (hashSpec hm.size key : Int) := by
  have hl : (toInt32 ((strlen key : Int) + 1)).toNat = strlen key + 1 := by
    unfold toInt32; omega
  have hs := hashLoop_eq_byteSum sc key 0 hpos (le_refl 0) (by omega)
  have hb := byteSum_le key
  unfold hash hashSpec
  simp only [hl, hs, zero_add]
  have h1 : toSizeT (byteSum key : Int) = byteSum key := by
    unfold toSizeT; omega
  rw [h1]
  have h2 : byteSum key % hm.size ≤ byteSum key := Nat.mod_le _ _
  generalize byteSum key % hm.size = r at h2
  unfold toInt32
  omega

theorem hash_empty_key (sc : Bool) (hm : HashMap) : hash sc hm [] = 0 := by
  simp [hash, strlen, hashLoop, charVal, toInt32, toSizeT]

theorem bucketIndex_empty_key (sc : Bool) (hm : HashMap) : bucketIndex sc hm [] = 0 := by
  simp [bucketIndex, hash_empty_key, toSizeT]

/-! ## Lookup of other keys, fresh tables, fixed capacity -/

theorem getLoop_skip (key : List Byte) (pre post : List Bucket) (b : Bucket)
    (hb : strcmp b.key key ≠ 0) :
    getLoop key (pre ++ b :: post) = getLoop key (pre ++ post) := by
  induction pre with
  | nil => simp [getLoop, hb]
  | cons x xs ih =>
    by_cases hx : strcmp x.key key = 0 <;> simp [getLoop, hx, ih]

/-- Replacing the chain of one slot leaves `get_data` of a key as it is when
the scan for that key gives the same on the old and the new chain. -/
theorem get_data_set_other (sc : Bool) (hm : HashMap) (i : Nat) (head c : List Bucket)
    (k1 : List Byte) (hh : hm.buckets[i]? = some head)
    (hsame : getLoop k1 c = getLoop k1 head) :
    get_data sc { hm with buckets := hm.buckets.set i c } (some k1) =
      get_data sc hm (some k1) := by
  obtain ⟨hlt, _⟩ := List.getElem?_eq_some_iff.1 hh
  have e : bucketIndex sc { hm with buckets := hm.buckets.set i c } k1 =
      bucketIndex sc hm k1 := bucketIndex_size sc hm _ k1 rfl
  simp only [get_data, e]
  by_cases hi : i = bucketIndex sc hm k1
  · rw [← hi, List.getElem?_set_self hlt, hh]
    simp only [hsame]
  · rw [List.getElem?_set_ne hi]

/-- An `insert_data` that returns leaves the result of `get_data` for every
other key as it was. -/
theorem insert_data_get_other (sc : Bool) (hm hm1 : HashMap) (k k1 : List Byte) (d : Data)
    (r : ResolveCollisionCallback) (calls : List (Data × Data))
    (h : insert_data sc hm k d r = some (hm1, calls)) (hne : strcmp k k1 ≠ 0) :
    get_data sc hm1 (some k1) = get_data sc hm (some k1) := by
  obtain ⟨head, hh⟩ := insert_data_in_bounds sc hm hm1 k d r calls h
  rcases insert_data_cases sc hm k d r head hh with
    ⟨_, he⟩ | ⟨pre, b, post, h1, _, h3, he⟩
  · rw [he] at h
    cases h
    apply get_data_set_other sc hm _ head _ k1 hh
    have : strcmp (strdup k) k1 ≠ 0 := fun hc =>
      hne (strcmp_trans (strcmp_symm (strcmp_strdup_self k)) hc)
    simp [getLoop, this]
  · rw [he] at h
    cases h
    apply get_data_set_other sc hm _ head _ k1 hh
    have hb : strcmp b.key k1 ≠ 0 := fun hc => hne (strcmp_trans (strcmp_symm h3) hc)
    rw [h1, getLoop_skip k1 pre post { key := b.key, data := merged r b.data d } hb,
      getLoop_skip k1 pre post b hb]

/-- A `remove_data` that returns leaves the result of `get_data` for every
other key as it was. -/
theorem remove_data_get_other (sc : Bool) (hm hm1 : HashMap) (k k1 : List Byte)
    (d : DestroyDataCallback) (calls : List Data)
    (h : remove_data sc hm k d = some (hm1, calls)) (hne : strcmp k k1 ≠ 0) :
    get_data sc hm1 (some k1) = get_data sc hm (some k1) := by
  obtain ⟨head, hh⟩ := remove_data_in_bounds sc hm hm1 k d calls h
  rcases remove_data_cases sc hm k d head hh with
    ⟨_, he⟩ | ⟨pre, b, post, h1, _, h3, he⟩
  · rw [he] at h
    cases h
    rfl
  · rw [he] at h
    cases h
    apply get_data_set_other sc hm _ head _ k1 hh
    have hb : strcmp b.key k1 ≠ 0 := fun hc => hne (strcmp_trans (strcmp_symm h3) hc)
    rw [h1, getLoop_skip k1 pre post b hb]

/-- Insert in a table of at most `2^31` slots leaves the lookups of all other
keys as they were. -/
theorem insert_data_get_other_of_le (sc : Bool) (hm : HashMap) (k k1 : List Byte) (d : Data)
    (r : ResolveCollisionCallback) (hs : Shaped hm) (hle : hm.size ≤ 2147483648)
    (hne : strcmp k k1 ≠ 0) :
    ∃ hm1 calls, insert_data sc hm k d r = some (hm1, calls) ∧
      get_data sc hm1 (some k1) = get_data sc hm (some k1) := by
  obtain ⟨hm1, calls, e⟩ := insert_data_defined sc hm k d r (in_bounds_of_le sc hm k hs hle)
  exact ⟨hm1, calls, e, insert_data_get_other sc hm hm1 k k1 d r calls e hne⟩

theorem remove_data_defined (sc : Bool) (hm : HashMap) (k : List Byte)
    (d : DestroyDataCallback) (h : bucketIndex sc hm k < hm.buckets.length) :
    ∃ hm1 calls, remove_data sc hm k d = some (hm1, calls) := by
  have hh : hm.buckets[bucketIndex sc hm k]? = some hm.buckets[bucketIndex sc hm k] :=
    List.getElem?_eq_getElem h
  rcases remove_data_cases sc hm k d _ hh with ⟨_, he⟩ | ⟨_, _, _, _, _, _, he⟩
  · exact ⟨_, _, he⟩
  · exact ⟨_, _, he⟩

/-- Remove in a table of at most `2^31` slots leaves the lookups of all other
keys as they were. -/
theorem remove_data_get_other_of_le (sc : Bool) (hm : HashMap) (k k1 : List Byte)
    (d : DestroyDataCallback) (hs : Shaped hm) (hle : hm.size ≤ 2147483648)
    (hne : strcmp k k1 ≠ 0) :
    ∃ hm1 calls, remove_data sc hm k d = some (hm1, calls) ∧
      get_data sc hm1 (some k1) = get_data sc hm (some k1) := by
  obtain ⟨hm1, calls, e⟩ := remove_data_defined sc hm k d (in_bounds_of_le sc hm k hs hle)
  exact ⟨hm1, calls, e, remove_data_get_other sc hm hm1 k k1 d calls e hne⟩

/-- Head insertion for a key that has no entry and whose index is a slot. -/
theorem insert_new_of_in_bounds (sc : Bool) (hm : HashMap) (k : List Byte) (d : Data)
    (r : ResolveCollisionCallback) (h : bucketIndex sc hm k < hm.buckets.length)
    (habs : ∀ b ∈ entries hm, strcmp b.key k ≠ 0) :
    insert_data sc hm k d r =
      some ({ hm with
              buckets := hm.buckets.set (bucketIndex sc hm k)
                ({ key := strdup k, data := d } :: hm.buckets[bucketIndex sc hm k]) }, []) := by
  have hh : hm.buckets[bucketIndex sc hm k]? = some hm.buckets[bucketIndex sc hm k] :=
    List.getElem?_eq_getElem h
  rcases insert_data_cases sc hm k d r _ hh with ⟨_, he⟩ | ⟨pre, b, post, h1, _, h3, _⟩
  · exact he
  · exfalso
    apply habs b _ h3
    apply mem_entries_of_slot hm _ _ b hh
    rw [h1]; simp

/-- Head insertion in a table of at most `2^31` slots. -/
theorem insert_new_of_le (sc : Bool) (hm : HashMap) (k : List Byte) (d : Data)
    (r : ResolveCollisionCallback) (hs : Shaped hm) (hle : hm.size ≤ 2147483648)
    (habs : ∀ b ∈ entries hm, strcmp b.key k ≠ 0) :
    ∃ head, hm.buckets[bucketIndex sc hm k]? = some head ∧
      insert_data sc hm k d r =
        some ({ hm with
                buckets := hm.buckets.set (bucketIndex sc hm k)
                  ({ key := strdup k, data := d } :: head) }, []) :=
  ⟨_, List.getElem?_eq_getElem (in_bounds_of_le sc hm k hs hle),
    insert_new_of_in_bounds sc hm k d r (in_bounds_of_le sc hm k hs hle) habs⟩

theorem get_data_absent (sc : Bool) (hm : HashMap) (k : List Byte)
    (h : bucketIndex sc hm k < hm.buckets.length)
    (habs : ∀ b ∈ entries hm, strcmp b.key k ≠ 0) : get_data sc hm (some k) = some NULL := by
  have hh : hm.buckets[bucketIndex sc hm k]? = some hm.buckets[bucketIndex sc hm k] :=
    List.getElem?_eq_getElem h
  simp only [get_data, hh]
  rw [getLoop_of_miss]
  intro x hx
  exact habs x (mem_entries_of_slot hm _ _ x hh hx)

theorem create_hashmap_entries (n : Nat) (hm : HashMap) (h : create_hashmap n = some hm) :
    entries hm = [] := by
  unfold create_hashmap at h
  split at h
  · cases h
    rw [List.eq_nil_iff_forall_not_mem]
    intro b hb
    obtain ⟨l, hl, hbl⟩ := List.mem_flatten.1 hb
    have : l = [] := List.eq_of_mem_replicate hl
    subst this
    cases hbl
  · cases h

/-- Creation with a capacity of at most `2^31`: the table has the capacity as
size, that many slots, all empty; every lookup misses and `iterate` visits
nothing. -/
theorem create_hashmap_fresh_of_le (n : Nat) (h0 : 0 < n) (hle : n ≤ 2147483648) :
    ∃ hm, create_hashmap n = some hm ∧ hm.size = n ∧ hm.buckets = List.replicate n [] ∧
      (∀ sc k, get_data sc hm (some k) = some NULL) ∧ iterate hm = some [] := by
  have hc : create_hashmap n = some { buckets := List.replicate n [], size := n } := by
    simp [create_hashmap, h0]
  have he := create_hashmap_entries n _ hc
  refine ⟨_, hc, rfl, rfl, ?_, ?_⟩
  · intro sc k
    have hwf := create_hashmap_WF sc n _ hc
    apply get_data_absent sc _ k (in_bounds_of_le sc _ k hwf.1 hle)
    intro b hb
    rw [he] at hb
    cases hb
  · rw [iterate_eq _ (by simp), he]
    rfl

theorem create_hashmap_zero : create_hashmap 0 = none := rfl

theorem create_hashmap_size (n : Nat) (hm : HashMap) (h : create_hashmap n = some hm) :
    0 < n ∧ hm.size = n ∧ hm.buckets.length = n := by
  unfold create_hashmap at h
  split at h
  · rename_i hn
    cases h
    exact ⟨hn, rfl, by simp⟩
  · cases h

theorem ReachableFrom_size (sc : Bool) (hm0 hm : HashMap) (h : ReachableFrom sc hm0 hm) :
    hm.size = hm0.size ∧ hm.buckets.length = hm0.buckets.length := by
  induction h with
  | start => exact ⟨rfl, rfl⟩
  | insert hm hm1 key data r calls _ h ih =>
    obtain ⟨a, b⟩ := insert_data_size sc hm hm1 key data r calls h
    exact ⟨a.trans ih.1, b.trans ih.2⟩
  | remove hm hm1 key d calls _ h ih =>
    obtain ⟨a, b⟩ := remove_data_size sc hm hm1 key d calls h
    exact ⟨a.trans ih.1, b.trans ih.2⟩

theorem get_data_of_slot (sc : Bool) (hm : HashMap) (k : List Byte) (head : List Bucket)
    (hh : hm.buckets[bucketIndex sc hm k]? = some head) :
    get_data sc hm (some k) = some (getLoop k head) := by
  simp only [get_data, hh]

theorem bigTable_slot (i : Nat) (h : i < 4294967296) : bigTable.buckets[i]? = some [] :=
  List.getElem?_replicate_of_lt h

theorem bigTable_get_other : get_data true bigTable (some [97]) = some NULL := by
  have hi : bucketIndex true bigTable [97] = 97 := by decide
  exact get_data_of_slot true bigTable [97] [] (by rw [hi]; exact bigTable_slot 97 (by decide))

/-! ## The empty key -/

theorem strcmp_nil_iff (k : List Byte) : strcmp k [] = 0 ↔ strlen k = 0 := by
  cases k with
  | nil => simp [strcmp, strlen]
  | cons c rest =>
    by_cases hc : c = 0
    · simp [strcmp, strlen, hc]
    · have : (c.val : Int) ≠ 0 := by
        intro h; apply hc; apply Fin.ext; simpa using h
      simp [strcmp, strlen, hc, this]

/-- Every entry after a `remove_data` is an entry from before. -/
theorem remove_data_entries_subset (sc : Bool) (hm hm1 : HashMap) (k : List Byte)
    (d : DestroyDataCallback) (calls : List Data)
    (h : remove_data sc hm k d = some (hm1, calls)) (b1 : Bucket) (hb1 : b1 ∈ entries hm1) :
    b1 ∈ entries hm := by
  obtain ⟨head, hh⟩ := remove_data_in_bounds sc hm hm1 k d calls h
  obtain ⟨hlt, _⟩ := List.getElem?_eq_some_iff.1 hh
  rcases remove_data_cases sc hm k d head hh with ⟨_, he⟩ | ⟨pre, b, post, h1, _, _, he⟩
  · rw [he] at h
    cases h
    exact hb1
  · rw [he] at h
    cases h
    rcases (mem_entries_set hm _ _ b1 hlt).1 hb1 with hb | ⟨j, hj, _, hb⟩
    · apply mem_entries_of_slot hm _ head b1 hh
      rw [h1]
      rcases List.mem_append.1 hb with hx | hx
      · exact List.mem_append_left _ hx
      · exact List.mem_append_right _ (List.mem_cons_of_mem _ hx)
    · exact (mem_entries_iff hm b1).2 ⟨j, hj, hb⟩

theorem ReachableByContract_Reachable (sc : Bool) (hm : HashMap)
    (h : ReachableByContract sc hm) : Reachable sc hm := by
  induction h with
  | create n hm h => exact Reachable.create n hm h
  | insert hm hm1 key data r calls _ _ h ih => exact Reachable.insert hm hm1 key data r calls ih h
  | remove hm hm1 key d calls _ h ih => exact Reachable.remove hm hm1 key d calls ih h

/-- A table built within the contract of insert holds no entry for the empty
key. -/
theorem ReachableByContract_no_empty_key (sc : Bool) (hm : HashMap)
    (h : ReachableByContract sc hm) : ∀ b ∈ entries hm, strcmp b.key [] ≠ 0 := by
  induction h with
  | create n hm h =>
    intro b hb
    rw [create_hashmap_entries n hm h] at hb
    cases hb
  | insert hm hm1 key data r calls h0 hkey h ih =>
    intro b hb hc
    have hwf := Reachable_WF sc hm (ReachableByContract_Reachable sc hm h0)
    rcases insert_data_entries sc hm hm1 key data r calls hwf h b hb with ⟨hk, _⟩ | ⟨_, hb0⟩
    · have : strcmp key [] = 0 := strcmp_trans (strcmp_symm hk) hc
      rw [strcmp_nil_iff] at this
      omega
    · exact ih b hb0 hc
  | remove hm hm1 key d calls _ h ih =>
    intro b hb
    exact ih b (remove_data_entries_subset sc hm hm1 key d calls h b hb)

/-! ## The data held at teardown -/

/-- The entry of the inserted key after an `insert_data` on a well-formed
table carries the resolved data when the key had an entry and the inserted data
when it had none; all other entries are as they were. -/
theorem insert_data_entry_data (sc : Bool) (hm hm1 : HashMap) (k : List Byte) (d : Data)
    (r : ResolveCollisionCallback) (calls : List (Data × Data)) (hwf : WF sc hm)
    (h : insert_data sc hm k d r = some (hm1, calls)) (b1 : Bucket) (hb1 : b1 ∈ entries hm1) :
    (strcmp b1.key k = 0 ∧
      ((∃ b ∈ entries hm, strcmp b.key k = 0 ∧ b1.data = merged r b.data d) ∨
        ((∀ b ∈ entries hm, strcmp b.key k ≠ 0) ∧ b1.data = d))) ∨
    (strcmp b1.key k ≠ 0 ∧ b1 ∈ entries hm) := by
  obtain ⟨head, hh⟩ := insert_data_in_bounds sc hm hm1 k d r calls h
  obtain ⟨hlt, hget⟩ := List.getElem?_eq_some_iff.1 hh
  have hoth : ∀ x, ∀ j, ∀ hj : j < hm.buckets.length, j ≠ bucketIndex sc hm k →
      x ∈ hm.buckets[j] → strcmp x.key k ≠ 0 := by
    intro x j hj hne hb hc
    apply hne
    rw [← hwf.2.1 j hj x hb]
    exact bucketIndex_of_strcmp sc hm hc
  have hin : ∀ x ∈ head, x ∈ entries hm := fun x hx =>
    mem_entries_of_slot hm _ head x hh hx
  rcases insert_data_cases sc hm k d r head hh with
    ⟨hmiss, he⟩ | ⟨pre, b, post, h1, h2, h3, he⟩
  · have habs : ∀ x ∈ entries hm, strcmp x.key k ≠ 0 := by
      intro x hx
      obtain ⟨j, hj, hxj⟩ := (mem_entries_iff hm x).1 hx
      by_cases hji : j = bucketIndex sc hm k
      · apply hmiss
        have e : hm.buckets[j]? = some head := by rw [hji]; exact hh
        obtain ⟨_, e1⟩ := List.getElem?_eq_some_iff.1 e
        rw [← e1]; exact hxj
      · exact hoth x j hj hji hxj
    rw [he] at h
    cases h
    rcases (mem_entries_set hm _ _ b1 hlt).1 hb1 with hb | ⟨j, hj, hne, hb⟩
    · rcases List.mem_cons.1 hb with rfl | hb
      · exact Or.inl ⟨strcmp_strdup_self k, Or.inr ⟨habs, rfl⟩⟩
      · exact Or.inr ⟨hmiss b1 hb, hin b1 hb⟩
    · exact Or.inr ⟨hoth b1 j hj hne hb, (mem_entries_iff hm b1).2 ⟨j, hj, hb⟩⟩
  · rw [he] at h
    cases h
    have hcd := hwf.2.2 _ hlt
    rw [hget, h1, List.pairwise_append] at hcd
    have hbin : b ∈ entries hm := hin b (by rw [h1]; simp)
    rcases (mem_entries_set hm _ _ b1 hlt).1 hb1 with hb | ⟨j, hj, hne, hb⟩
    · rcases List.mem_append.1 hb with hb | hb
      · exact Or.inr ⟨h2 b1 hb, hin b1 (by rw [h1]; exact List.mem_append_left _ hb)⟩
      · rcases List.mem_cons.1 hb with rfl | hb
        · exact Or.inl ⟨h3, Or.inl ⟨b, hbin, h3, rfl⟩⟩
        · refine Or.inr ⟨fun hc => ?_, hin b1 (by rw [h1]; simp [hb])⟩
          exact (List.pairwise_cons.1 hcd.2.1).1 b1 hb (strcmp_trans h3 (strcmp_symm hc))
    · exact Or.inr ⟨hoth b1 j hj hne hb, (mem_entries_iff hm b1).2 ⟨j, hj, hb⟩⟩

theorem heldData_cons_hit (cur : Option Data) (k key : List Byte) (d : Data)
    (r : ResolveCollisionCallback)
    (rest : List (List Byte × Data × ResolveCollisionCallback)) (h : strcmp k key = 0) :
    heldData cur ((k, d, r) :: rest) key =
      heldData (some (match cur with | none => d | some old => merged r old d)) rest key := by
  cases cur <;> simp [heldData, h]

theorem heldData_cons_miss (cur : Option Data) (k key : List Byte) (d : Data)
    (r : ResolveCollisionCallback)
    (rest : List (List Byte × Data × ResolveCollisionCallback)) (h : strcmp k key ≠ 0) :
    heldData cur ((k, d, r) :: rest) key = heldData cur rest key := by
  simp [heldData, h]

/-- After a sequence of inserts into a well-formed table every entry carries
the held data of its key: computed from the data of the key's entry before, or
from no entry. -/
theorem insertAll_heldData (sc : Bool) (hm hm2 : HashMap)
    (ops : List (List Byte × Data × ResolveCollisionCallback)) (hwf : WF sc hm)
    (h : insertAll sc hm ops = some hm2) (b2 : Bucket) (hb2 : b2 ∈ entries hm2) :
    (∃ b ∈ entries hm, strcmp b.key b2.key = 0 ∧
      heldData (some b.data) ops b2.key = some b2.data) ∨
    ((∀ b ∈ entries hm, strcmp b.key b2.key ≠ 0) ∧ heldData none ops b2.key = some b2.data) := by
  induction ops generalizing hm with
  | nil =>
    simp only [insertAll, Option.some.injEq] at h
    subst h
    exact Or.inl ⟨b2, hb2, (strcmp_eq_zero_iff _ _).2 rfl, rfl⟩
  | cons op rest ih =>
    obtain ⟨k, d, r⟩ := op
    obtain ⟨hm1, calls, e1, e2⟩ := insertAll_cons sc hm hm2 k d r rest h
    have hwf1 := insert_data_WF sc hm hm1 k d r calls hwf e1
    rcases ih hm1 hwf1 e2 with ⟨b1, hb1, hk1, hd1⟩ | ⟨habs1, hd1⟩
    · rcases insert_data_entry_data sc hm hm1 k d r calls hwf e1 b1 hb1 with
        ⟨hk, ⟨b, hb, hbk, hbd⟩ | ⟨habs, hbd⟩⟩ | ⟨hk, hb0⟩
      · have hkk : strcmp k b2.key = 0 := strcmp_trans (strcmp_symm hk) hk1
        refine Or.inl ⟨b, hb, strcmp_trans hbk hkk, ?_⟩
        rw [heldData_cons_hit _ k b2.key d r rest hkk]
        simp only
        rw [← hbd]; exact hd1
      · have hkk : strcmp k b2.key = 0 := strcmp_trans (strcmp_symm hk) hk1
        refine Or.inr ⟨fun b hb hc => habs b hb (strcmp_trans hc (strcmp_symm hkk)), ?_⟩
        rw [heldData_cons_hit _ k b2.key d r rest hkk]
        simp only
        rw [← hbd]; exact hd1
      · have hkk : strcmp k b2.key ≠ 0 := fun hc =>
          hk (strcmp_trans hk1 (strcmp_symm hc))
        refine Or.inl ⟨b1, hb0, hk1, ?_⟩
        rw [heldData_cons_miss _ k b2.key d r rest hkk]
        exact hd1
    · obtain ⟨bk, hbk, hbkk⟩ := insert_data_present sc hm hm1 k d r calls e1
      have hkk : strcmp k b2.key ≠ 0 := fun hc => habs1 bk hbk (strcmp_trans hbkk hc)
      refine Or.inr ⟨?_, ?_⟩
      · intro b hb hc
        obtain ⟨b1, hb1, hk1⟩ := insert_data_keeps_keys sc hm hm1 k d r calls e1 b hb
        exact habs1 b1 hb1 (by rw [hk1]; exact hc)
      · rw [heldData_cons_miss _ k b2.key d r rest hkk]
        exact hd1

theorem entries_set (hm : HashMap) (i : Nat) (c : List Bucket) (hi : i < hm.buckets.length) :
    entries { hm with buckets := hm.buckets.set i c } =
      ((hm.buckets.take i).flatten ++ c) ++ (hm.buckets.drop (i + 1)).flatten := by
  unfold entries
  simp only
  rw [List.set_eq_take_append_cons_drop, if_pos hi, List.flatten_append, List.flatten_cons,
    List.append_assoc]

/-- Putting a new entry at the head of a chain adds it to the entries of the
table and leaves the others. -/
theorem entries_head_insert_perm (hm : HashMap) (i : Nat) (new : Bucket)
    (hi : i < hm.buckets.length) :
    List.Perm (entries { hm with buckets := hm.buckets.set i (new :: hm.buckets[i]) })
      (new :: entries hm) := by
  rw [entries_set hm i _ hi]
  have e : entries hm = ((hm.buckets.take i).flatten ++ hm.buckets[i]) ++
      (hm.buckets.drop (i + 1)).flatten := flatten_split hm.buckets i hi
  rw [e, List.append_assoc, List.append_assoc, List.cons_append]
  exact List.perm_middle

/-- Inserts of pairwise different keys, none of which has an entry before, add
one entry per insert, with the inserted data. -/
theorem insertAll_distinct_perm (sc : Bool) (hm hm2 : HashMap)
    (ops : List (List Byte × Data × ResolveCollisionCallback))
    (habs : ∀ op ∈ ops, ∀ b ∈ entries hm, strcmp b.key op.1 ≠ 0)
    (hd : ops.Pairwise (fun p q => strcmp p.1 q.1 ≠ 0))
    (h : insertAll sc hm ops = some hm2) :
    List.Perm (entries hm2)
      (ops.map (fun p => ({ key := strdup p.1, data := p.2.1 } : Bucket)) ++ entries hm) := by
  induction ops generalizing hm with
  | nil =>
    simp only [insertAll, Option.some.injEq] at h
    subst h
    exact List.Perm.refl _
  | cons op rest ih =>
    obtain ⟨k, d, r⟩ := op
    obtain ⟨hm1, calls, e1, e2⟩ := insertAll_cons sc hm hm2 k d r rest h
    obtain ⟨head, hh⟩ := insert_data_in_bounds sc hm hm1 k d r calls e1
    obtain ⟨hlt, _⟩ := List.getElem?_eq_some_iff.1 hh
    have hnew := insert_new_of_in_bounds sc hm k d r hlt
      (habs (k, d, r) (List.mem_cons_self _ _))
    rw [hnew] at e1
    cases e1
    have hp1 := entries_head_insert_perm hm (bucketIndex sc hm k)
      { key := strdup k, data := d } hlt
    obtain ⟨hk, hrest⟩ := List.pairwise_cons.1 hd
    have habs1 : ∀ op ∈ rest, ∀ b ∈ entries { hm with
        buckets := hm.buckets.set (bucketIndex sc hm k)
          ({ key := strdup k, data := d } :: hm.buckets[bucketIndex sc hm k]) },
        strcmp b.key op.1 ≠ 0 := by
      intro op hop b hb
      rcases List.mem_cons.1 (hp1.mem_iff.1 hb) with rfl | hb0
      · intro hc
        exact hk op hop (strcmp_trans (strcmp_symm (strcmp_strdup_self k)) hc)
      · exact habs op (List.mem_cons_of_mem _ hop) b hb0
    have hp2 := ih _ habs1 hrest e2
    refine hp2.trans ?_
    simp only [List.map_cons, List.cons_append]
    exact (List.Perm.append_left _ hp1).trans List.perm_middle

/-- Without resolvers the held data of a key is the data of its last insert. -/
theorem heldData_noResolver (cur : Option Data) (ops : List (List Byte × Data))
    (key : List Byte) :
    heldData cur (noResolver ops) key =
      match lastWrite ops key with
      | some x => some x
      | none => cur := by
  induction ops generalizing cur with
  | nil => rfl
  | cons p rest ih =>
    obtain ⟨k, d⟩ := p
    by_cases hk : strcmp k key = 0
    · have e : heldData cur (noResolver ((k, d) :: rest)) key =
          heldData (some d) (noResolver rest) key := by
        cases cur <;> simp [noResolver, heldData, hk, merged]
      rw [e, ih]
      cases hl : lastWrite rest key <;> simp [lastWrite, hl, hk]
    · have e : heldData cur (noResolver ((k, d) :: rest)) key =
          heldData cur (noResolver rest) key := by
        simp [noResolver, heldData, hk]
      rw [e, ih]
      cases hl : lastWrite rest key <;> simp [lastWrite, hl, hk]

/-! ## The claims -/

/-- C1 (round trip), at the failing input. With signed `char`, on the table
`create_hashmap(4294967296)` returns, `hash` gives `-1` for the key `"\xff"`
and `insert_data(hm, "\xff", 1, NULL)` indexes the bucket array outside its
`2^32` slots: the insert is undefined and no round trip takes place. -/
theorem roundtrip_undefined_on_big_table :
    create_hashmap 4294967296 = some bigTable ∧
    hash true bigTable [255] = -1 ∧
    insert_data true bigTable [255] 1 none = none := by
  exact ⟨bigTable_create, by decide, bigTable_insert_undefined 1 none⟩

/-- C2 (overwrite), at the failing input. With signed `char`, on the
well-formed table `create_hashmap(4294967296)` returns, the two calls
`insert_data(hm, "\xff", 1, NULL)`, `insert_data(hm, "\xff", 2, NULL)` do not
yield a table: the first one indexes the bucket array outside its bounds. -/
theorem overwrite_undefined_on_big_table :
    WF true bigTable ∧
    (insert_data true bigTable [255] 1 none).bind
      (fun p => insert_data true p.1 [255] 2 none) = none := by
  refine ⟨create_hashmap_WF true 4294967296 bigTable bigTable_create, ?_⟩
  rw [bigTable_insert_undefined 1 none]
  rfl

/-- C3 (merge). In a well-formed table in which the key `k` has an entry with
data `d1`, `insert_data(hm, k, d2, r)` with a resolver `r` returns, calls `r`
exactly once, with `d1` as first and `d2` as second argument, and `get_data`
returns `r(d1, d2)` for `k` afterwards. -/
theorem merge_existing_key (sc : Bool) (hm : HashMap) (k : List Byte) (d1 d2 : Data)
    (r : Data → Data → Data) (hwf : WF sc hm)
    (hk : ∃ b ∈ entries hm, strcmp b.key k = 0 ∧ b.data = d1) :
    ∃ hm1, insert_data sc hm k d2 (some r) = some (hm1, [(d1, d2)]) ∧
      get_data sc hm1 (some k) = some (r d1 d2) := by
  obtain ⟨b, hb, hbk, rfl⟩ := hk
  obtain ⟨i, hi, hbi⟩ := (mem_entries_iff hm b).1 hb
  have hidx : bucketIndex sc hm k = i := by
    rw [← bucketIndex_of_strcmp sc hm hbk]; exact hwf.2.1 i hi b hbi
  subst hidx
  have hh : hm.buckets[bucketIndex sc hm k]? = some hm.buckets[bucketIndex sc hm k] :=
    List.getElem?_eq_getElem hi
  rcases insert_data_cases sc hm k d2 (some r) _ hh with
    ⟨hmiss, _⟩ | ⟨pre, b1, post, h1, h2, h3, he⟩
  · exact absurd hbk (hmiss b hbi)
  · have hcd := hwf.2.2 _ hi
    rw [h1] at hbi hcd
    have hbb : b = b1 := by
      rcases List.mem_append.1 hbi with hx | hx
      · exact absurd hbk (h2 b hx)
      · rcases List.mem_cons.1 hx with hx | hx
        · exact hx
        · exfalso
          rw [List.pairwise_append] at hcd
          exact (List.pairwise_cons.1 hcd.2.1).1 b hx (strcmp_trans h3 (strcmp_symm hbk))
    subst hbb
    refine ⟨_, he, ?_⟩
    rw [get_data_set sc hm k _ hi,
      getLoop_hit k pre post { key := b.key, data := merged (some r) b.data d2 } h2 h3]
    rfl

/-- The spec's scenario 3: in the table holding `"foo"` with data `1`,
`insert_data("foo", 2, sum)` calls the resolver once, on `(1, 2)`, and
`get_data("foo")` is `3` afterwards. -/
theorem merge_existing_key_witness :
    WF true sampleTable ∧
    (∃ b ∈ entries sampleTable, strcmp b.key keyFoo = 0 ∧ b.data = 1) ∧
    ∃ hm1, insert_data true sampleTable keyFoo 2 (some (fun a b => a + b)) =
        some (hm1, [(1, 2)]) ∧
      get_data true hm1 (some keyFoo) = some ((fun a b => a + b) 1 2) :=
  ⟨by decide, by decide,
    merge_existing_key true sampleTable keyFoo 1 2 (fun a b => a + b) (by decide) (by decide)⟩

/-- C4 (removal), at the failing input. With signed `char`, on the reachable
table `create_hashmap(4294967296)` returns, `remove_data(hm, "\xff", NULL)`
indexes the bucket array outside its `2^32` slots, and so does the
`get_data(hm, "\xff")` that follows: neither returns. -/
theorem removal_undefined_on_big_table :
    Reachable true bigTable ∧
    remove_data true bigTable [255] none = none ∧
    get_data true bigTable (some [255]) = none := by
  exact ⟨Reachable.create 4294967296 bigTable bigTable_create,
    bigTable_remove_undefined none, bigTable_get_undefined⟩

/-- C5 (removal of an absent key), at the failing input. With signed `char`,
on the empty table of `2^32` slots the key `"\xff"` has no entry, and
`remove_data(hm, "\xff", destroy)` is no no-op: it reads the bucket array
outside its bounds. -/
theorem remove_absent_undefined_on_big_table (destroy : DestroyDataCallback) :
    Shaped bigTable ∧ (∀ b ∈ entries bigTable, strcmp b.key [255] ≠ 0) ∧
    remove_data true bigTable [255] destroy = none := by
  refine ⟨(create_hashmap_WF true 4294967296 bigTable bigTable_create).1, ?_,
    bigTable_remove_undefined destroy⟩
  intro b hb
  exact absurd hb (bigTable_entries b)

/-- C6 (iteration completeness), at the failing input. With signed `char`, on
the fresh table `create_hashmap(4294967296)` returns, the sequence of the one
call `insert_data(hm, "\xff", 1, NULL)` uses one key and yields no table to
iterate over: the call indexes the bucket array outside its bounds. -/
theorem inserts_undefined_on_big_table :
    create_hashmap 4294967296 = some bigTable ∧
    insertAll true bigTable (noResolver [([255], 1)]) = none :=
  ⟨bigTable_create, insertAll_undefined true bigTable [255] 1 none []
    (bigTable_insert_undefined 1 none)⟩

/-- C7 (iteration order). `iterate` visits the chains in ascending slot order,
each from head to tail: the visit sequence is the concatenation of the chains
of slots `0 .. N-1`. When a key `k1` is inserted for the first time, later,
other inserts in between or not, a key `k2` of the same slot is inserted for
the first time, and further inserts follow, `k2` is visited before `k1`. -/
theorem iterate_order (sc : Bool) (hm0 hm1 hm2 hm3 hm4 : HashMap) (k1 k2 : List Byte)
    (d1 d2 : Data) (r1 r2 : ResolveCollisionCallback) (c1 c2 : List (Data × Data))
    (ops1 ops2 : List (List Byte × Data × ResolveCollisionCallback))
    (hs : hm0.buckets.length = hm0.size)
    (habs1 : ∀ b ∈ entries hm0, strcmp b.key k1 ≠ 0)
    (hi1 : insert_data sc hm0 k1 d1 r1 = some (hm1, c1))
    (ho1 : insertAll sc hm1 ops1 = some hm2)
    (habs2 : ∀ b ∈ entries hm2, strcmp b.key k2 ≠ 0)
    (hi2 : insert_data sc hm2 k2 d2 r2 = some (hm3, c2))
    (ho2 : insertAll sc hm3 ops2 = some hm4)
    (hsame : bucketIndex sc hm0 k1 = bucketIndex sc hm0 k2) :
    ∃ visits, iterate hm4 = some visits ∧
      visits = (hm4.buckets.flatten).map (fun b => (b.key, b.data)) ∧
      ∃ l1 l2 l3, visits.map Prod.fst = l1 ++ strdup k2 :: (l2 ++ strdup k1 :: l3) := by
  obtain ⟨s1, n1⟩ := insert_data_size sc hm0 hm1 k1 d1 r1 c1 hi1
  obtain ⟨s2, n2⟩ := insertAll_size sc hm1 hm2 ops1 ho1
  obtain ⟨s3, n3⟩ := insert_data_size sc hm2 hm3 k2 d2 r2 c2 hi2
  obtain ⟨s4, n4⟩ := insertAll_size sc hm3 hm4 ops2 ho2
  have hlen : hm4.buckets.length = hm4.size := by
    rw [n4, n3, n2, n1, s4, s3, s2, s1]; exact hs
  obtain ⟨head, hh⟩ := insert_data_in_bounds sc hm0 hm1 k1 d1 r1 c1 hi1
  obtain ⟨hlt, _⟩ := List.getElem?_eq_some_iff.1 hh
  have hlt4 : bucketIndex sc hm0 k1 < hm4.buckets.length := by
    rw [n4, n3, n2, n1]; exact hlt
  have e1 := insert_data_chainKeys_new sc hm0 hm1 k1 d1 r1 c1 habs1 hi1
  obtain ⟨m1, e2⟩ := insertAll_chainKeys sc hm1 hm2 ops1 ho1 (bucketIndex sc hm0 k1)
  have e3 := insert_data_chainKeys_new sc hm2 hm3 k2 d2 r2 c2 habs2 hi2
  rw [bucketIndex_size sc hm0 hm2 k2 (s2.trans s1), ← hsame] at e3
  obtain ⟨m2, e4⟩ := insertAll_chainKeys sc hm3 hm4 ops2 ho2 (bucketIndex sc hm0 k1)
  refine ⟨_, iterate_eq hm4 hlen, rfl, ?_⟩
  have hk := entries_keys_split hm4 (bucketIndex sc hm0 k1) hlt4
  rw [e4, e3, e2, e1] at hk
  refine ⟨(hm4.buckets.take (bucketIndex sc hm0 k1)).flatten.map Bucket.key ++ m2, m1,
    chainKeys hm0 (bucketIndex sc hm0 k1) ++
      (hm4.buckets.drop (bucketIndex sc hm0 k1 + 1)).flatten.map Bucket.key, ?_⟩
  rw [List.map_map]
  have hf : (Prod.fst ∘ fun b : Bucket => (b.key, b.data)) = Bucket.key := rfl
  rw [hf, hk]
  simp only [List.append_assoc, List.cons_append]

/-- The spec's scenario 5 with two keys of one slot: `"foo"` is inserted into
the empty table of capacity `4`, then `"oof"`; `iterate` visits `"oof"` first. -/
theorem iterate_order_witness :
    (emptyTable.buckets.length = emptyTable.size ∧
      insert_data true emptyTable keyFoo 1 none = some (fooTable, []) ∧
      insert_data true fooTable keyOof 2 none = some (sampleTable, []) ∧
      bucketIndex true emptyTable keyFoo = bucketIndex true emptyTable keyOof) ∧
    ∃ visits, iterate sampleTable = some visits ∧
      visits = (sampleTable.buckets.flatten).map (fun b => (b.key, b.data)) ∧
      ∃ l1 l2 l3, visits.map Prod.fst = l1 ++ strdup keyOof :: (l2 ++ strdup keyFoo :: l3) :=
  ⟨⟨by decide, by decide, by decide, by decide⟩,
    iterate_order true emptyTable fooTable fooTable sampleTable sampleTable keyFoo keyOof 1 2
      none none [] [] [] [] (by decide) (by decide) (by decide) rfl (by decide) (by decide)
      rfl (by decide)⟩

/-- C8 (teardown), counterexample. In the table `create_hashmap(4)`,
`insert_data("foo", 1)`, `insert_data("foo", 2)` leave, `delete_hashmap` with a
destroy function calls it on `2` only: the data reference `1`, inserted before,
is passed to it zero times. And after `insert_data("foo", 1)`,
`insert_data("oof", 1)` the one reference `1` is passed to it twice. -/
theorem teardown_not_once_per_inserted :
    ((create_hashmap 4).bind (fun hm0 =>
      (insertAll true hm0 [(keyFoo, 1, none), (keyFoo, 2, none)]).bind (fun hm =>
        delete_hashmap hm (some (fun _ => ())))) = some [2]) ∧
    ((create_hashmap 4).bind (fun hm0 =>
      (insertAll true hm0 [(keyFoo, 1, none), (keyOof, 1, none)]).bind (fun hm =>
        delete_hashmap hm (some (fun _ => ())))) = some [1, 1]) := by
  decide

/-- C8 (teardown), amended. For a table built from `create_hashmap` by a
sequence of `insert_data` calls, `delete_hashmap` with a destroy function calls
it once for every entry the table holds, in iteration order, on the data the
entry carries. The table holds exactly one entry for every key inserted and
none for any other key, and the entry of a key carries the held data of that
key: the data of the key's first insert, replaced at every later insert of the
key by the inserted data or, with a resolver, by the resolver's result. When
the inserted keys are pairwise different, the calls are the inserted data
references, one call per insert; when these references are different too,
each of them is passed exactly once. -/
theorem teardown_once_per_entry (sc : Bool) (n : Nat) (hm0 hm : HashMap)
    (ops : List (List Byte × Data × ResolveCollisionCallback)) (f : Data → Unit)
    (hc : create_hashmap n = some hm0) (hi : insertAll sc hm0 ops = some hm) :
    ∃ calls, delete_hashmap hm (some f) = some calls ∧
      calls = (entries hm).map Bucket.data ∧
      (∀ op ∈ ops, keyCount hm op.1 = 1) ∧
      (∀ b ∈ entries hm, ∃ op ∈ ops, strcmp b.key op.1 = 0) ∧
      (∀ b ∈ entries hm, heldData none ops b.key = some b.data) ∧
      (ops.Pairwise (fun p q => strcmp p.1 q.1 ≠ 0) →
        List.Perm calls (ops.map (fun p => p.2.1)) ∧
        ((ops.map (fun p => p.2.1)).Nodup → ∀ op ∈ ops, calls.count op.2.1 = 1)) := by
  have hwf0 := create_hashmap_WF sc n hm0 hc
  have hwf := insertAll_WF sc hm0 hm ops hwf0 hi
  have he0 := create_hashmap_entries n hm0 hc
  refine ⟨_, delete_hashmap_some hm f hwf.1.2, rfl, ?_, ?_, ?_, ?_⟩
  · intro op hop
    obtain ⟨b, hb, hk⟩ := insertAll_present sc hm0 hm ops hi op hop
    have := WF_keyCount_le_one sc hm hwf op.1
    have := keyCount_pos_of_mem hm op.1 b hb hk
    omega
  · intro b hb
    rcases insertAll_origin sc hm0 hm ops hwf0 hi b hb with h | h
    · exact h
    · rw [he0] at h
      cases h
  · intro b hb
    rcases insertAll_heldData sc hm0 hm ops hwf0 hi b hb with ⟨b0, hb0, _⟩ | ⟨_, h⟩
    · rw [he0] at hb0
      cases hb0
    · exact h
  · intro hd
    have hp := insertAll_distinct_perm sc hm0 hm ops
      (fun op _ b hb => by rw [he0] at hb; cases hb) hd hi
    rw [he0, List.append_nil] at hp
    have hp1 : List.Perm ((entries hm).map Bucket.data) (ops.map (fun p => p.2.1)) := by
      have := hp.map Bucket.data
      rwa [List.map_map] at this
    refine ⟨hp1, fun hnd op hop => ?_⟩
    rw [hp1.count_eq]
    exact List.count_eq_one_of_mem hnd (List.mem_map.2 ⟨op, hop, rfl⟩)

/-- The spec's scenario 6 with two overwritten keys: after `"foo"` and `"oof"`
are inserted with data `7` and `8` and again with data `1` and `2`, teardown
calls the destroy function on `2` and on `1`, the data last inserted. And after
the two inserts of `"foo"` with `1` and `"oof"` with `2` alone, the calls are a
rearrangement of `1, 2` and each of the two is passed once. -/
theorem teardown_once_per_entry_witness :
    ((create_hashmap 4 = some emptyTable ∧
        insertAll true emptyTable sampleOps = some sampleTable) ∧
      ∃ calls, delete_hashmap sampleTable (some (fun _ => ())) = some calls ∧
        calls = (entries sampleTable).map Bucket.data ∧
        (∀ op ∈ sampleOps, keyCount sampleTable op.1 = 1) ∧
        (∀ b ∈ entries sampleTable, ∃ op ∈ sampleOps, strcmp b.key op.1 = 0) ∧
        (∀ b ∈ entries sampleTable, heldData none sampleOps b.key = some b.data) ∧
        (sampleOps.Pairwise (fun p q => strcmp p.1 q.1 ≠ 0) →
          List.Perm calls (sampleOps.map (fun p => p.2.1)) ∧
          ((sampleOps.map (fun p => p.2.1)).Nodup →
            ∀ op ∈ sampleOps, calls.count op.2.1 = 1))) ∧
    ((insertAll true emptyTable distinctOps = some sampleTable ∧
        distinctOps.Pairwise (fun p q => strcmp p.1 q.1 ≠ 0) ∧
        (distinctOps.map (fun p => p.2.1)).Nodup) ∧
      ∃ calls, delete_hashmap sampleTable (some (fun _ => ())) = some calls ∧
        List.Perm calls [1, 2] ∧ calls.count 1 = 1 ∧ calls.count 2 = 1) :=
  ⟨⟨⟨by decide, by decide⟩,
      teardown_once_per_entry true 4 emptyTable sampleTable sampleOps (fun _ => ())
        (by decide) (by decide)⟩,
    ⟨⟨by decide, by decide, by decide⟩,
      match teardown_once_per_entry true 4 emptyTable sampleTable distinctOps (fun _ => ())
        (by decide) (by decide) with
      | ⟨calls, h1, _, _, _, _, h6⟩ =>
        ⟨calls, h1, (h6 (by decide)).1,
          (h6 (by decide)).2 (by decide) (keyFoo, 1, none) (List.mem_cons_self _ _),
          (h6 (by decide)).2 (by decide) (keyOof, 2, none)
            (List.mem_cons_of_mem _ (List.mem_cons_self _ _))⟩⟩⟩

/-- C9 (global key uniqueness). In every table reachable from `create_hashmap`
by calls of `insert_data` and `remove_data`, each key has at most one entry,
all chains counted together. -/
theorem reachable_key_unique (sc : Bool) (hm : HashMap) (h : Reachable sc hm)
    (k : List Byte) : keyCount hm k ≤ 1 :=
  WF_keyCount_le_one sc hm (Reachable_WF sc hm h) k

/-- The table holding `"foo"` and `"oof"` is reachable, and no key has two
entries in it. -/
theorem reachable_key_unique_witness :
    Reachable true sampleTable ∧ ∀ k, keyCount sampleTable k ≤ 1 :=
  have h : Reachable true sampleTable :=
    Reachable.insert fooTable sampleTable keyOof 2 none []
      (Reachable.insert emptyTable fooTable keyFoo 1 none []
        (Reachable.create 4 emptyTable (by decide)) (by decide)) (by decide)
  ⟨h, fun k => reachable_key_unique true sampleTable h k⟩

/-- C10 (hash range), at the failing input. With signed `char` and a capacity
of `2^32`, the key `"\xff"` sums to `-1`; the remainder is taken in `size_t`
and is `2^32 - 1`, which the `int` result cannot hold: `hash` returns `-1`,
and the index `insert_data`, `get_data` and `remove_data` make of it is
`2^64 - 1`, not below the capacity. -/
theorem hash_out_of_range_on_big_table :
    hashLoop true [255] 2 0 0 = -1 ∧
    hash true bigTable [255] = -1 ∧
    bucketIndex true bigTable [255] = 18446744073709551615 ∧
    ¬ bucketIndex true bigTable [255] < bigTable.size := by
  refine ⟨by decide, by decide, by decide, by decide⟩

/-- C11 (hash definition), at the failing input. With signed `char` and a
capacity of `7`, the key `"\xff"` has the byte sum `255`, which is `3` modulo
`7`; read as plain `char` its bytes sum to `-1`, which is `6` modulo `7`. The
function `hash` converts the `-1` to `size_t` before it takes the remainder
and returns `1`. -/
theorem hash_not_byte_sum_on_high_byte :
    create_hashmap 7 = some sevenTable ∧
    hash true sevenTable [255] = 1 ∧
    hashSpec sevenTable.size [255] = 3 ∧
    charSum true [255] = -1 ∧ charSum true [255] % 7 = 6 := by
  decide

/-- C12 (null key lookup). For every table, whatever its slots and its
capacity, `get_data(hm, NULL)` returns `NULL`: the result does not depend on
the table, also not on one without slots, where every bucket access is
undefined. -/
theorem get_data_null_key (sc : Bool) (hm : HashMap) : get_data sc hm none = some NULL :=
  rfl

/-- C13 (empty key lookup). Insert takes a non-empty key. In every table made
by `create_hashmap` and changed by `insert_data` calls with non-empty keys and
by `remove_data` calls, whatever was inserted, `get_data` with the empty string
as key looks up slot `0`, finds no entry and returns `NULL`. -/
theorem empty_key_lookup_misses (sc : Bool) (hm : HashMap) (h : ReachableByContract sc hm)
    (k : List Byte) (hk : strlen k = 0) : get_data sc hm (some k) = some NULL := by
  have hwf := Reachable_WF sc hm (ReachableByContract_Reachable sc hm h)
  have hk0 : strcmp k [] = 0 := (strcmp_nil_iff k).2 hk
  have hi : bucketIndex sc hm k < hm.buckets.length := by
    rw [bucketIndex_of_strcmp sc hm hk0, bucketIndex_empty_key, hwf.1.2]
    exact hwf.1.1
  apply get_data_absent sc hm k hi
  intro b hb hc
  exact ReachableByContract_no_empty_key sc hm h b hb (strcmp_trans hc hk0)

/-- In the table holding `"foo"` and `"oof"`, built by two inserts of non-empty
keys, the lookup of the empty string returns `NULL`. -/
theorem empty_key_lookup_misses_witness :
    (ReachableByContract true sampleTable ∧ strlen [] = 0) ∧
    get_data true sampleTable (some []) = some NULL :=
  have h : ReachableByContract true sampleTable :=
    ReachableByContract.insert fooTable sampleTable keyOof 2 none []
      (ReachableByContract.insert emptyTable fooTable keyFoo 1 none []
        (ReachableByContract.create 4 emptyTable (by decide)) (by decide) (by decide))
      (by decide) (by decide)
  ⟨⟨h, by decide⟩, empty_key_lookup_misses true sampleTable h [] (by decide)⟩

/-- C14 (creation), at the failing input. `create_hashmap(4294967296)` returns
a table of that size without entries, and with signed `char` the lookup
`get_data(hm, "\xff")` on it does not return not-found: it reads the bucket
array outside its bounds. -/
theorem fresh_lookup_undefined_on_big_table :
    create_hashmap 4294967296 = some bigTable ∧
    bigTable.size = 4294967296 ∧ entries bigTable = [] ∧
    get_data true bigTable (some [255]) = none :=
  ⟨bigTable_create, rfl, create_hashmap_entries 4294967296 bigTable bigTable_create,
    bigTable_get_undefined⟩

/-- C15 (fixed capacity). `insert_data` and `remove_data` leave the size field
and the number of slots as they are (`get_data` and `iterate` return no
table), so in every table reached from `create_hashmap(n)` by such calls the
size and the number of slots are the creation capacity `n`, which is
positive. -/
theorem capacity_fixed (sc : Bool) (n : Nat) (hm0 hm : HashMap)
    (hc : create_hashmap n = some hm0) (hr : ReachableFrom sc hm0 hm) :
    (0 < n ∧ hm.size = n ∧ hm.buckets.length = n) ∧
    (∀ key data r hm1 calls, insert_data sc hm key data r = some (hm1, calls) →
      hm1.size = hm.size ∧ hm1.buckets.length = hm.buckets.length) ∧
    (∀ key d hm1 calls, remove_data sc hm key d = some (hm1, calls) →
      hm1.size = hm.size ∧ hm1.buckets.length = hm.buckets.length) := by
  obtain ⟨h0, h1, h2⟩ := create_hashmap_size n hm0 hc
  obtain ⟨h3, h4⟩ := ReachableFrom_size sc hm0 hm hr
  exact ⟨⟨h0, h3.trans h1, h4.trans h2⟩,
    fun key data r hm1 calls h => insert_data_size sc hm hm1 key data r calls h,
    fun key d hm1 calls h => remove_data_size sc hm hm1 key d calls h⟩

/-- The table holding `"foo"` and `"oof"`, reached from `create_hashmap(4)` by
two inserts, has size `4` and `4` slots. -/
theorem capacity_fixed_witness :
    (create_hashmap 4 = some emptyTable ∧ ReachableFrom true emptyTable sampleTable) ∧
    ((0 < 4 ∧ sampleTable.size = 4 ∧ sampleTable.buckets.length = 4) ∧
      (∀ key data r hm1 calls, insert_data true sampleTable key data r = some (hm1, calls) →
        hm1.size = sampleTable.size ∧ hm1.buckets.length = sampleTable.buckets.length) ∧
      (∀ key d hm1 calls, remove_data true sampleTable key d = some (hm1, calls) →
        hm1.size = sampleTable.size ∧ hm1.buckets.length = sampleTable.buckets.length)) :=
  have h : ReachableFrom true emptyTable sampleTable :=
    ReachableFrom.insert fooTable sampleTable keyOof 2 none []
      (ReachableFrom.insert emptyTable fooTable keyFoo 1 none [] ReachableFrom.start
        (by decide)) (by decide)
  ⟨⟨by decide, h⟩, capacity_fixed true 4 emptyTable sampleTable (by decide) h⟩

/-- C16 (remove effect). In a well-formed table in which the key `k` has an
entry with data `d`, the chain of the key's slot is `pre ++ b :: post` with
`b` that entry, at the head (`pre` empty) or further in; `remove_data` returns
the table with this chain replaced by `pre ++ post`, every other chain as it
was, no entry for `k` left in the chain, and calls the destroy function once,
on `d`, when it is given, and not at all when it is null. -/
theorem remove_unlinks_entry (sc : Bool) (hm : HashMap) (k : List Byte) (d : Data)
    (destroy : DestroyDataCallback) (hwf : WF sc hm)
    (hk : ∃ b ∈ entries hm, strcmp b.key k = 0 ∧ b.data = d) :
    ∃ pre b post, hm.buckets[bucketIndex sc hm k]? = some (pre ++ b :: post) ∧
      strcmp b.key k = 0 ∧ b.data = d ∧
      (∀ x ∈ pre ++ post, strcmp x.key k ≠ 0) ∧
      remove_data sc hm k destroy =
        some ({ hm with buckets := hm.buckets.set (bucketIndex sc hm k) (pre ++ post) },
              if destroy.isSome then [d] else []) := by
  obtain ⟨b, hb, hbk, rfl⟩ := hk
  obtain ⟨i, hi, hbi⟩ := (mem_entries_iff hm b).1 hb
  have hidx : bucketIndex sc hm k = i := by
    rw [← bucketIndex_of_strcmp sc hm hbk]; exact hwf.2.1 i hi b hbi
  subst hidx
  have hh : hm.buckets[bucketIndex sc hm k]? = some hm.buckets[bucketIndex sc hm k] :=
    List.getElem?_eq_getElem hi
  rcases remove_data_cases sc hm k destroy _ hh with
    ⟨hmiss, _⟩ | ⟨pre, b1, post, h1, h2, h3, he⟩
  · exact absurd hbk (hmiss b hbi)
  · have hcd := hwf.2.2 _ hi
    rw [h1] at hbi hcd
    rw [List.pairwise_append] at hcd
    have hpost : ∀ x ∈ post, strcmp x.key k ≠ 0 := fun x hx hc =>
      (List.pairwise_cons.1 hcd.2.1).1 x hx (strcmp_trans h3 (strcmp_symm hc))
    have hbb : b = b1 := by
      rcases List.mem_append.1 hbi with hx | hx
      · exact absurd hbk (h2 b hx)
      · rcases List.mem_cons.1 hx with hx | hx
        · exact hx
        · exact absurd hbk (hpost b hx)
    subst hbb
    refine ⟨pre, b, post, by rw [hh, h1], h3, rfl, ?_, he⟩
    intro x hx
    rcases List.mem_append.1 hx with hx | hx
    · exact h2 x hx
    · exact hpost x hx

/-- In the table holding `"oof"` at the head and `"foo"` behind it in slot `0`,
removing `"foo"` with a destroy function unlinks the inner node and calls the
function on its data `1`. -/
theorem remove_unlinks_entry_witness :
    WF true sampleTable ∧
    (∃ b ∈ entries sampleTable, strcmp b.key keyFoo = 0 ∧ b.data = 1) ∧
    ∃ pre b post, sampleTable.buckets[bucketIndex true sampleTable keyFoo]? =
        some (pre ++ b :: post) ∧
      strcmp b.key keyFoo = 0 ∧ b.data = 1 ∧
      (∀ x ∈ pre ++ post, strcmp x.key keyFoo ≠ 0) ∧
      remove_data true sampleTable keyFoo (some (fun _ => ())) =
        some ({ sampleTable with
                buckets := sampleTable.buckets.set (bucketIndex true sampleTable keyFoo)
                  (pre ++ post) },
              if (some (fun (_ : Data) => ())).isSome then [1] else []) :=
  ⟨by decide, by decide,
    remove_unlinks_entry true sampleTable keyFoo 1 (some (fun _ => ())) (by decide)
      (by decide)⟩

/-- C17 (head insertion), at the failing input. With signed `char`, in the
table of `2^32` slots the key `"\xff"` has no entry, its index is no slot, and
`insert_data(hm, "\xff", 1, resolver)` makes no new head entry: it indexes the
bucket array outside its bounds. -/
theorem head_insert_undefined_on_big_table (r : Data → Data → Data) :
    (∀ b ∈ entries bigTable, strcmp b.key [255] ≠ 0) ∧
    bigTable.buckets[bucketIndex true bigTable [255]]? = none ∧
    insert_data true bigTable [255] 1 (some r) = none :=
  ⟨fun b hb => absurd hb (bigTable_entries b), bigTable_out_of_bounds,
    bigTable_insert_undefined 1 (some r)⟩

/-- C18 (bucket placement). In every table reachable from `create_hashmap` by
calls of `insert_data` and `remove_data`, every entry of the chain of slot `i`
has a key for which the index made of `hash` is `i`. -/
theorem reachable_placed (sc : Bool) (hm : HashMap) (h : Reachable sc hm) (i : Nat)
    (hi : i < hm.buckets.length) (b : Bucket) (hb : b ∈ hm.buckets[i]) :
    toSizeT (hash sc hm b.key) = i :=
  (Reachable_WF sc hm h).2.1 i hi b hb

/-- In the reachable table holding `"foo"` and `"oof"` the entry of `"foo"`
stands in slot `0`, and `"foo"` hashes to `0`. -/
theorem reachable_placed_witness :
    (Reachable true sampleTable ∧
      ({ key := keyFoo, data := 1 } : Bucket) ∈ sampleTable.buckets[0]) ∧
    toSizeT (hash true sampleTable keyFoo) = 0 :=
  have h : Reachable true sampleTable :=
    Reachable.insert fooTable sampleTable keyOof 2 none []
      (Reachable.insert emptyTable fooTable keyFoo 1 none []
        (Reachable.create 4 emptyTable (by decide)) (by decide)) (by decide)
  ⟨⟨h, by decide⟩,
    reachable_placed true sampleTable h 0 (by decide) { key := keyFoo, data := 1 } (by decide)⟩

/-- C19 (insert leaves other keys alone), at the failing input. With signed
`char`, in the table of `2^32` slots `get_data(hm, "a")` returns `NULL`, and
`insert_data(hm, "\xff", 2, resolver)` for the different key `"\xff"` writes
the bucket array outside its bounds: no table is left on which the lookup of
`"a"` could be repeated. -/
theorem insert_frame_undefined_on_big_table (r : ResolveCollisionCallback) :
    strcmp [255] [97] ≠ 0 ∧
    get_data true bigTable (some [97]) = some NULL ∧
    (insert_data true bigTable [255] 2 r).bind
      (fun p => get_data true p.1 (some [97])) = none := by
  refine ⟨by decide, bigTable_get_other, ?_⟩
  rw [bigTable_insert_undefined 2 r]
  rfl

/-- C20 (remove leaves other keys alone), at the failing input. With signed
`char`, in the table of `2^32` slots `get_data(hm, "a")` returns `NULL`, and
`remove_data(hm, "\xff", destroy)` for the different key `"\xff"` reads the
bucket array outside its bounds: no table is left on which the lookup of `"a"`
could be repeated. -/
theorem remove_frame_undefined_on_big_table (destroy : DestroyDataCallback) :
    strcmp [255] [97] ≠ 0 ∧
    get_data true bigTable (some [97]) = some NULL ∧
    (remove_data true bigTable [255] destroy).bind
      (fun p => get_data true p.1 (some [97])) = none := by
  refine ⟨by decide, bigTable_get_other, ?_⟩
  rw [bigTable_remove_undefined destroy]
  rfl

end Hashmap
